import Mathlib

/-!
The discord-irc relay: the `Bot` class of `dist/bot.js`.

A shallow embedding of the channel-mapping construction, of the Discord to IRC
translation (`parseText`, `sendToIRC`), of the IRC to Discord translation
(`sendToDiscord`) and of the invite listener, followed by the properties
established for them.

Modelling conventions
* A JavaScript string is the list of its UTF-16 code units.
* A plain object is the list of its own enumerable string-keyed properties,
  in enumeration order, with `Object.prototype` behind it: a read of a name that is
  no own property finds the member inherited under that name, if there is one
  (`readProp`), and an assignment to `__proto__` creates no property (`defineProp`).
* A function that can throw returns `Except JSError _`.
* The effects of a method (lines said on the IRC client, messages sent to a Discord
  channel, channels joined) are returned as a list, in the order in which they are
  performed.
* Library code the class calls but does not define (`toLowerCase`,
  `irc.colors.wrap`, `validateChannelMapping`, the `toString` of a guild member and
  of a user) is taken as a parameter.
-/

namespace DiscordIrc

/-! ## JavaScript values -/

/-- A JavaScript string, as the sequence of its UTF-16 code units. -/
abbrev JSString := List Nat

/-- The JavaScript string written as a literal in the source. -/
def js (s : String) : JSString := s.toList.map Char.toNat

/-- The values a configuration can hold. Numbers are kept up to what the
constructor can observe of them (being zero, or being NaN). -/
inductive JSVal where
  | undefined
  | null
  | bool (b : Bool)
  | number (n : Int)
  | nan
  | string (s : JSString)
  | object (props : List (JSString × JSVal))

/-- JavaScript `ToBoolean`: what `!v` tests. -/
def JSVal.truthy : JSVal → Bool
  | .undefined => false
  | .null => false
  | .bool b => b
  | .number n => n != 0
  | .nan => false
  | .string s => !s.isEmpty
  | .object _ => true

/-- The strict comparison `v !== false`. -/
def JSVal.isNotFalse : JSVal → Bool
  | .bool false => false
  | _ => true

/-- A plain object with values of type `α`: its own properties in enumeration order. -/
abbrev JSObject (α : Type) := List (JSString × α)

/-- The own property of `o` named `k`; `none` when `o` has no own property of this name. -/
def getProp {α : Type} : JSObject α → JSString → Option α
  | [], _ => none
  | (k', v) :: rest, k => if k' = k then some v else getProp rest k

/-- The creation or update of the own property `k`: an existing property keeps its place,
a new one is appended. -/
def defineProp {α : Type} : JSObject α → JSString → α → JSObject α
  | [], k, v => [(k, v)]
  | (k', v') :: rest, k, v => if k' = k then (k, v) :: rest else (k', v') :: defineProp rest k v

/-- The names that a plain object inherits from `Object.prototype`. -/
def OBJECT_PROTOTYPE_NAMES : List JSString :=
  [js "constructor", js "__defineGetter__", js "__defineSetter__", js "hasOwnProperty",
   js "__lookupGetter__", js "__lookupSetter__", js "isPrototypeOf",
   js "propertyIsEnumerable", js "toString", js "valueOf", js "__proto__",
   js "toLocaleString"]

/-- What the property read `o[k]` finds on a plain object: the value of an own property, a
member inherited from `Object.prototype` (a function, or the prototype itself under
`__proto__`: truthy, and not a string), or `undefined`. -/
inductive PropRead (α : Type) where
  | own (v : α)
  | inherited
  | undefined

/-- The property read `o[k]` on a plain object. -/
def readProp {α : Type} (o : JSObject α) (k : JSString) : PropRead α :=
  match getProp o k with
  | some v => .own v
  | none => if OBJECT_PROTOTYPE_NAMES.contains k then .inherited else .undefined

/-- The assignment `o[k] = v` of a string to a plain object: under `__proto__` it reaches the
setter inherited from `Object.prototype`, which ignores a value that is no object, so that
no property is created; under any other name it creates or updates the own property. -/
def setProp {α : Type} (o : JSObject α) (k : JSString) (v : α) : JSObject α :=
  if k = js "__proto__" then o else defineProp o k v

/-- The own property names of an object, in enumeration order. -/
def keys {α : Type} (o : JSObject α) : List JSString := o.map Prod.fst

/-- The own enumerable string-keyed properties that lodash `forOwn` and `values` visit:
the properties of an object, the indexed code units of a string, nothing for
the other primitives. -/
def ownEntries : JSVal → List (JSString × JSVal)
  | .object props => props
  | .string s => s.enum.map (fun ic => (js (toString ic.1), JSVal.string [ic.2]))
  | _ => []

/-- The expression `s.split(' ')[0]`: the part of `s` before its first space. -/
def splitFirst (s : JSString) : JSString := s.takeWhile (fun c => c != 32)

/-! ## Errors -/

/-- The exceptions the class can raise. -/
inductive JSError where
  | configurationError (message : JSString)
  | typeError

/-! ## Configuration and construction -/

/-- The options object handed to the constructor. A required field that is
absent reads as `undefined`. -/
structure Options where
  server : JSVal
  nickname : JSVal
  channelMapping : JSVal
  discordToken : JSVal
  ircOptions : JSVal
  commandCharacters : Option (List JSString)
  ircNickColor : JSVal
  autoSendCommands : Option (List (List JSString))

/-- The property read `options[field]`, for the names the constructor reads this way. -/
def Options.get (o : Options) (field : JSString) : JSVal :=
  if field = js "server" then o.server
  else if field = js "nickname" then o.nickname
  else if field = js "channelMapping" then o.channelMapping
  else if field = js "discordToken" then o.discordToken
  else JSVal.undefined

def REQUIRED_FIELDS : List JSString :=
  [js "server", js "nickname", js "channelMapping", js "discordToken"]

def NICK_COLORS : List JSString :=
  [js "light_blue", js "dark_blue", js "light_red", js "dark_red", js "light_green",
   js "dark_green", js "magenta", js "light_magenta", js "orange", js "yellow", js "cyan",
   js "light_cyan"]

/-- The state of a constructed relay. -/
structure Bot where
  server : JSVal
  nickname : JSVal
  ircOptions : JSVal
  discordToken : JSVal
  commandCharacters : List JSString
  ircNickColor : Bool
  channels : List JSVal
  channelMapping : JSObject JSString
  invertedMapping : JSObject JSString
  autoSendCommands : List (List JSString)

/-- What the constructor has done so far, in order. -/
inductive CtorStep where
  | channelMappingValidated
  | discordClientCreated
  | channelMappingBuilt
  | mappingInverted
  deriving DecidableEq, Repr

/-- The `forOwn` loop of the constructor: each IRC value loses its password and is
lowercased; a value without a `split` method raises a `TypeError`. -/
def buildChannelMapping (toLowerCase : JSString → JSString) :
    List (JSString × JSVal) → JSObject JSString → Except JSError (JSObject JSString)
  | [], acc => .ok acc
  | (discordChan, .string ircChan) :: rest, acc =>
      buildChannelMapping toLowerCase rest
        (setProp acc discordChan (toLowerCase (splitFirst ircChan)))
  | _ :: _, _ => .error .typeError

/-- Lodash `invert`: every value becomes a key holding the name it was found under;
a later assignment overwrites an earlier one. -/
def invert (o : JSObject JSString) : JSObject JSString :=
  o.foldl (fun result kv => setProp result kv.2 kv.1) []

/-- The constructor of `Bot`. `validateChannelMapping` answers the message of the
`ConfigurationError` it raises, if any. The result holds the steps performed and
either the exception thrown or the relay built. -/
def Bot.new (validateChannelMapping : JSVal → Option JSString)
    (toLowerCase : JSString → JSString) (options : Options) :
    List CtorStep × Except JSError Bot :=
  match REQUIRED_FIELDS.find? (fun field => !(options.get field).truthy) with
  | some field =>
      ([], .error (.configurationError (js "Missing configuration field " ++ field)))
  | none =>
    match validateChannelMapping options.channelMapping with
    | some message => ([], .error (.configurationError message))
    | none =>
      match buildChannelMapping toLowerCase (ownEntries options.channelMapping) [] with
      | .error e => ([.channelMappingValidated, .discordClientCreated], .error e)
      | .ok channelMapping =>
          ([.channelMappingValidated, .discordClientCreated, .channelMappingBuilt,
             .mappingInverted],
           .ok
            { server := options.server
              nickname := options.nickname
              ircOptions := options.ircOptions
              discordToken := options.discordToken
              commandCharacters := options.commandCharacters.getD []
              ircNickColor := options.ircNickColor.isNotFalse
              channels := (ownEntries options.channelMapping).map Prod.snd
              channelMapping := channelMapping
              invertedMapping := invert channelMapping
              autoSendCommands := options.autoSendCommands.getD [] })

/-! ## String primitives of the runtime -/

/-- Splits `s` around the first occurrence of `pat`: the text before it and the text after it. -/
def splitAtFirst (pat : JSString) : JSString → Option (JSString × JSString)
  | [] => if pat.isEmpty then some ([], []) else none
  | c :: rest =>
      if pat.isPrefixOf (c :: rest) then some ([], (c :: rest).drop pat.length)
      else (splitAtFirst pat rest).map (fun p => (c :: p.1, p.2))

/-- The expansion of a replacement string for a string pattern (ECMAScript `GetSubstitution`
without captures): `$$` is a dollar sign, `$&` the matched text, `$` followed by a backquote
the text before the match, `$` followed by a quote the text after it; any other dollar
sign stands for itself. -/
def getSubstitution (matched before after : JSString) : JSString → JSString
  | [] => []
  | [c] => [c]
  | c :: d :: rest =>
      if c = 36 then
        if d = 36 then 36 :: getSubstitution matched before after rest
        else if d = 38 then matched ++ getSubstitution matched before after rest
        else if d = 96 then before ++ getSubstitution matched before after rest
        else if d = 39 then after ++ getSubstitution matched before after rest
        else 36 :: getSubstitution matched before after (d :: rest)
      else c :: getSubstitution matched before after (d :: rest)

/-- The call `s.replace(pat, rep)` with a string pattern: only the first occurrence of
`pat` is replaced. -/
def jsReplace (s pat rep : JSString) : JSString :=
  match splitAtFirst pat s with
  | none => s
  | some (before, after) => before ++ getSubstitution pat before after rep ++ after

/-- The call `s.replace(re, f)` with a global regular expression: `matchAt` answers, for a
position, the captured group and the length of the match starting there; matches are
taken leftmost first and do not overlap, the text between them is kept. The first
argument counts the code units of the current match still to be skipped. -/
def replaceAll {α : Type} (matchAt : JSString → Option (α × Nat))
    (replacer : α → Except JSError JSString) : Nat → JSString → Except JSError JSString
  | _, [] => .ok []
  | skip + 1, _ :: rest => replaceAll matchAt replacer skip rest
  | 0, c :: rest =>
      match matchAt (c :: rest) with
      | some (group, len) =>
          match replacer group with
          | .error e => .error e
          | .ok r =>
              match replaceAll matchAt replacer (len - 1) rest with
              | .error e => .error e
              | .ok out => .ok (r ++ out)
      | none =>
          match replaceAll matchAt replacer 0 rest with
          | .error e => .error e
          | .ok out => .ok (c :: out)

/-- The class `\d`. -/
def isDigit (c : Nat) : Bool := decide (48 ≤ c) && decide (c ≤ 57)

/-- The class `\w`. -/
def isWordChar (c : Nat) : Bool :=
  isDigit c || (decide (65 ≤ c) && decide (c ≤ 90)) || (decide (97 ≤ c) && decide (c ≤ 122))
    || decide (c = 95)

/-- The replacement `.replace(/\n|\r\n|\r/g, ' ')`. -/
def replaceNewlines : JSString → JSString
  | [] => []
  | [c] => if c = 10 ∨ c = 13 then [32] else [c]
  | c :: d :: rest =>
      if c = 10 then 32 :: replaceNewlines (d :: rest)
      else if c = 13 then
        if d = 10 then 32 :: replaceNewlines rest else 32 :: replaceNewlines (d :: rest)
      else c :: replaceNewlines (d :: rest)

/-- A match of `/<#(\d+)>/` at the start of the text: the captured digits and the length
of the match. -/
def matchChannelRef : JSString → Option (JSString × Nat)
  | a :: b :: rest =>
      if a = 60 ∧ b = 35 then
        match rest.dropWhile isDigit with
        | c :: _ =>
            if c = 62 ∧ (rest.takeWhile isDigit) ≠ [] then
              some (rest.takeWhile isDigit, (rest.takeWhile isDigit).length + 3)
            else none
        | [] => none
      else none
  | _ => none

/-- A match of `/<(:\w+:)\d+>/` at the start of the text: the captured shortcode with its
colons and the length of the match. -/
def matchEmote : JSString → Option (JSString × Nat)
  | a :: b :: rest =>
      if a = 60 ∧ b = 58 then
        match rest.dropWhile isWordChar with
        | c :: rest2 =>
            if c = 58 ∧ (rest.takeWhile isWordChar) ≠ [] then
              match rest2.dropWhile isDigit with
              | e :: _ =>
                  if e = 62 ∧ (rest2.takeWhile isDigit) ≠ [] then
                    some (58 :: rest.takeWhile isWordChar ++ [58],
                      (rest.takeWhile isWordChar).length + (rest2.takeWhile isDigit).length + 4)
                  else none
              | [] => none
            else none
        | [] => none
      else none
  | _ => none

/-! ## The Discord side -/

/-- A Discord user. -/
structure User where
  id : JSString
  username : JSString

/-- A member of a guild; `nickname` is `none` when it is `null`. -/
structure GuildMember where
  nickname : Option JSString

/-- A guild: its members by user id. -/
structure Guild where
  members : JSObject GuildMember

/-- A cached channel; `name` is `none` for a channel without a name, `type` is `text` for a
text channel, `guild` is the guild the channel belongs to. -/
structure Channel where
  name : Option JSString
  type : JSString
  guild : Guild

/-- An attachment of a message. -/
structure Attachment where
  url : JSString

/-- A message event of the Discord client. -/
structure Message where
  author : User
  channelName : JSString
  guild : Guild
  content : JSString
  mentions : List User
  attachments : List Attachment

/-- What the relay reads of the Discord client when an event fires: its own user, the
channel cache by channel id and the known users. -/
structure DiscordClient where
  user : User
  channels : JSObject Channel
  users : List User

/-- A value placed in a template literal, where `undefined` prints as its name. -/
def templateString : Option JSString → JSString
  | some s => s
  | none => js "undefined"

def getDiscordNicknameOnServer (user : User) (guild : Guild) : JSString :=
  match getProp guild.members user.id with
  | some userDetails =>
      match userDetails.nickname with
      | some nickname => if nickname.isEmpty then user.username else nickname
      | none => user.username
  | none => user.username

/-- The `reduce` of `parseText`: the content with the mention tokens of the listed users
replaced, one user after the other. -/
def replaceMentions (message : Message) : JSString :=
  message.mentions.foldl
    (fun content mention =>
      let displayName := getDiscordNicknameOnServer mention message.guild
      jsReplace
        (jsReplace
          (jsReplace content (js "<@" ++ mention.id ++ js ">") (64 :: displayName))
          (js "<@!" ++ mention.id ++ js ">") (64 :: displayName))
        (js "<@&" ++ mention.id ++ js ">") (64 :: displayName))
    message.content

/-- The replacer of channel references: a channel missing from the cache makes
`channel.name` raise a `TypeError`. -/
def channelRefReplacer (discord : DiscordClient) (channelId : JSString) :
    Except JSError JSString :=
  match getProp discord.channels channelId with
  | some channel => .ok (35 :: templateString channel.name)
  | none => .error .typeError

def parseText (discord : DiscordClient) (message : Message) : Except JSError JSString :=
  match replaceAll matchChannelRef (channelRefReplacer discord) 0
      (replaceNewlines (replaceMentions message)) with
  | .error e => .error e
  | .ok text => replaceAll matchEmote (fun emoteName => .ok emoteName) 0 text

/-! ## Relaying to IRC -/

/-- A call `ircClient.say(target, text)`. -/
structure IrcSay where
  target : JSString
  text : JSString
  deriving DecidableEq, Repr

/-- The test `commandCharacters.indexOf(message[0]) !== -1`. -/
def isCommandMessage (bot : Bot) (message : JSString) : Bool :=
  match message with
  | [] => false
  | c :: _ => bot.commandCharacters.contains [c]

/-- The index `(nickname.charCodeAt(0) + nickname.length) % NICK_COLORS.length`; `none`
stands for the NaN of an empty name. -/
def colorIndex (nickname : JSString) : Option Nat :=
  match nickname with
  | [] => none
  | c :: _ => some ((c + nickname.length) % NICK_COLORS.length)

/-- The name shown in front of a relayed line: wrapped in its colour when colouring
is on. `colorsWrap` is `irc.colors.wrap`, its first argument `none` for `undefined`. -/
def displayUsername (colorsWrap : Option JSString → JSString → JSString) (bot : Bot)
    (nickname : JSString) : JSString :=
  if bot.ircNickColor then
    colorsWrap ((colorIndex nickname).bind (fun i => NICK_COLORS.get? i)) nickname
  else nickname

/-- The method `sendToIRC`: the lines said on the IRC client, in order, or the
exception thrown (always before the first line). The key of the lookup starts with `#`,
which no name inherited from `Object.prototype` does, so that the read
`channelMapping[channelName]` is that of an own property. -/
def sendToIRC (colorsWrap : Option JSString → JSString → JSString) (bot : Bot)
    (discord : DiscordClient) (message : Message) : Except JSError (List IrcSay) :=
  if message.author.id = discord.user.id then .ok []
  else
    match getProp bot.channelMapping (35 :: message.channelName) with
    | none => .ok []
    | some ircChannel =>
        if ircChannel.isEmpty then .ok []
        else
          let nickname := getDiscordNicknameOnServer message.author message.guild
          match parseText discord message with
          | .error e => .error e
          | .ok text =>
              if isCommandMessage bot text then
                .ok [⟨ircChannel, js "Command sent from Discord by " ++ nickname ++ js ":"⟩,
                     ⟨ircChannel, text⟩]
              else
                .ok ((if text.isEmpty then []
                      else [⟨ircChannel,
                        js "<" ++ displayUsername colorsWrap bot nickname ++ js "> " ++ text⟩])
                  ++ message.attachments.map (fun a =>
                      ⟨ircChannel,
                        js "<" ++ displayUsername colorsWrap bot nickname ++ js "> " ++ a.url⟩))

/-! ## The specification of the newline step -/

/-- The newline step in the words of the specification: each newline variant, that is a
carriage return followed by a line feed, a line feed, or a carriage return, becomes one
space, and every other code unit is kept. -/
inductive NewlinesCollapsed : JSString → JSString → Prop where
  | done : NewlinesCollapsed [] []
  | crlf {s t : JSString} : NewlinesCollapsed s t → NewlinesCollapsed (13 :: 10 :: s) (32 :: t)
  | lf {s t : JSString} : NewlinesCollapsed s t → NewlinesCollapsed (10 :: s) (32 :: t)
  | cr {s t : JSString} : s.head? ≠ some 10 → NewlinesCollapsed s t →
      NewlinesCollapsed (13 :: s) (32 :: t)
  | keep {c : Nat} {s t : JSString} : c ≠ 10 → c ≠ 13 → NewlinesCollapsed s t →
      NewlinesCollapsed (c :: s) (c :: t)

/-- A text without line feed and without carriage return. -/
def NoLineBreak (s : JSString) : Prop := ∀ c ∈ s, c ≠ 10 ∧ c ≠ 13

/-! ## Tokens, in the words of the specification -/

/-- The three encodings of a mention of the user with this id. -/
def mentionTokens (id : JSString) : List JSString :=
  [js "<@" ++ id ++ js ">", js "<@!" ++ id ++ js ">", js "<@&" ++ id ++ js ">"]

/-- A channel reference: `<#`, one or more digits, `>`. -/
def IsChannelRefToken (t : JSString) : Prop :=
  ∃ digits, digits ≠ [] ∧ (∀ c ∈ digits, isDigit c = true) ∧ t = js "<#" ++ digits ++ js ">"

/-- A custom emote: `<:`, a name of one or more word characters, `:`, one or more digits, `>`. -/
def IsEmoteToken (t : JSString) : Prop :=
  ∃ name digits, name ≠ [] ∧ (∀ c ∈ name, isWordChar c = true) ∧
    digits ≠ [] ∧ (∀ c ∈ digits, isDigit c = true) ∧
    t = js "<:" ++ name ++ js ":" ++ digits ++ js ">"

/-! ## Relaying to Discord -/

/-- The class `\s`: the white space and line terminator code units of ECMAScript. -/
def isWhiteSpace (c : Nat) : Bool :=
  decide (c = 9) || decide (c = 10) || decide (c = 11) || decide (c = 12) || decide (c = 13)
    || decide (c = 32) || decide (c = 160) || decide (c = 5760)
    || (decide (8192 ≤ c) && decide (c ≤ 8202)) || decide (c = 8232) || decide (c = 8233)
    || decide (c = 8239) || decide (c = 8287) || decide (c = 12288) || decide (c = 65279)

/-- The longest non-empty prefix of a run of non-space code units that ends at a word
boundary `\b`: what the greedy `[^\s]+` keeps after backtracking. The run is followed by
white space or by the end of the text, so its end is a boundary when its last code unit is
a word character. -/
def longestBoundaryPrefix : JSString → Option JSString
  | [] => none
  | [c] => if isWordChar c then some [c] else none
  | c :: d :: rest =>
      match longestBoundaryPrefix (d :: rest) with
      | some p => some (c :: p)
      | none => if isWordChar c != isWordChar d then some [c] else none

/-- A match of `/@[^\s]+\b/` at the start of the text: the matched text and its length. -/
def matchMention : JSString → Option (JSString × Nat)
  | [] => none
  | c :: rest =>
      if c = 64 then
        (longestBoundaryPrefix (rest.takeWhile (fun x => !isWhiteSpace x))).map
          (fun p => (64 :: p, p.length + 1))
      else none

/-- The first text channel of the cache with this name:
`channels.filter(c => c.type === 'text').find('name', name)`. -/
def findTextChannel (discord : DiscordClient) (name : JSString) : Option (JSString × Channel) :=
  (discord.channels.filter (fun c => decide (c.2.type = js "text"))).find?
    (fun c => decide (c.2.name = some name))

/-- The replacer of `sendToDiscord` for a matched `@` token. The member or user it returns is
turned into text by its `toString`, taken as a parameter; reading the nickname of a user
who is not a member of the guild raises a `TypeError`. -/
def mentionReplacer (memberToString : JSString × GuildMember → JSString)
    (userToString : User → JSString) (discord : DiscordClient) (guild : Guild)
    (matched : JSString) : Except JSError JSString :=
  let search := matched.drop 1
  match guild.members.find? (fun m => decide (m.2.nickname = some search)) with
  | some nickUser => .ok (memberToString nickUser)
  | none =>
      match discord.users.find? (fun u => decide (u.username = search)) with
      | some user =>
          match getProp guild.members user.id with
          | none => .error .typeError
          | some member =>
              match member.nickname with
              | none => .ok (userToString user)
              | some nickname =>
                  if nickname.isEmpty || decide (nickname = search) then .ok (userToString user)
                  else .ok matched
      | none => .ok matched

/-- A call `discordChannel.sendMessage(content)` on the channel with this id. -/
structure DiscordSend where
  channelId : JSString
  content : JSString
  deriving DecidableEq, Repr

/-- The method `sendToDiscord`: the messages sent, in order, or the exception thrown
(always before the message is sent). A member inherited from `Object.prototype` that the
lookup finds is truthy and has no `slice` method, so that `discordChannelName.slice(1)`
raises a `TypeError`. -/
def sendToDiscord (toLowerCase : JSString → JSString)
    (memberToString : JSString × GuildMember → JSString) (userToString : User → JSString)
    (bot : Bot) (discord : DiscordClient) (author channel text : JSString) :
    Except JSError (List DiscordSend) :=
  match readProp bot.invertedMapping (toLowerCase channel) with
  | .undefined => .ok []
  | .inherited => .error .typeError
  | .own discordChannelName =>
      if discordChannelName.isEmpty then .ok []
      else
        match findTextChannel discord (discordChannelName.drop 1) with
        | none => .ok []
        | some discordChannel =>
            match replaceAll matchMention
                (mentionReplacer memberToString userToString discord discordChannel.2.guild)
                0 text with
            | .error e => .error e
            | .ok withMentions =>
                .ok [⟨discordChannel.1, js "**<" ++ author ++ js ">** " ++ withMentions⟩]

/-- The listener of the IRC `invite` event: the channels joined. A member inherited from
`Object.prototype` that the lookup finds is truthy, so that the channel is joined. -/
def onInvite (bot : Bot) (channel : JSString) : List JSString :=
  match readProp bot.invertedMapping channel with
  | .undefined => []
  | .inherited => [channel]
  | .own discordChannelName => if discordChannelName.isEmpty then [] else [channel]

/-! ## The tokens of a text -/

/-- The text cut up as a global replacement sees it: the code units it keeps (left) and
the groups of its matches (right), leftmost match first. -/
def segments {α : Type} (matchAt : JSString → Option (α × Nat)) :
    Nat → JSString → List (Nat ⊕ α)
  | _, [] => []
  | skip + 1, _ :: rest => segments matchAt skip rest
  | 0, c :: rest =>
      match matchAt (c :: rest) with
      | some (group, len) => Sum.inr group :: segments matchAt (len - 1) rest
      | none => Sum.inl c :: segments matchAt 0 rest

/-- The text put together again, every match replaced by what the replacer answers. -/
def renderSegments {α : Type} (replacer : α → Except JSError JSString) :
    List (Nat ⊕ α) → Except JSError JSString
  | [] => .ok []
  | Sum.inl c :: rest =>
      match renderSegments replacer rest with
      | .error e => .error e
      | .ok out => .ok (c :: out)
  | Sum.inr group :: rest =>
      match replacer group with
      | .error e => .error e
      | .ok r =>
          match renderSegments replacer rest with
          | .error e => .error e
          | .ok out => .ok (r ++ out)

/-- The `@` tokens of a text: the matches of `/@[^\s]+\b/g`. -/
def mentionTokensOf (text : JSString) : List JSString :=
  (segments matchMention 0 text).filterMap (fun seg => seg.getRight?)

/-! ## A sample deployment, used to instantiate the properties -/

/-- Lowercasing of the letters `A` to `Z`, as `toLowerCase` does on ASCII text. -/
def asciiToLowerCase (s : JSString) : JSString :=
  s.map (fun c => if 65 ≤ c ∧ c ≤ 90 then c + 32 else c)

/-- A colour helper that leaves the name as it is. -/
def plainWrap : Option JSString → JSString → JSString := fun _ text => text

/-- The options of a relay that lack the Discord token. -/
def optionsWithoutToken : Options :=
  { server := .string (js "irc.example.org")
    nickname := .string (js "relay")
    channelMapping := .object [(js "#discord", .string (js "#IRC secret"))]
    discordToken := .undefined
    ircOptions := .undefined
    commandCharacters := none
    ircNickColor := .undefined
    autoSendCommands := none }

/-- A complete configuration bridging `#discord` to the IRC channel `#IRC` with a password,
with `!` as command character and colouring switched off. -/
def relayOptions : Options :=
  { server := .string (js "irc.example.org")
    nickname := .string (js "relay")
    channelMapping := .object [(js "#discord", .string (js "#IRC secret"))]
    discordToken := .string (js "token")
    ircOptions := .undefined
    commandCharacters := some [js "!"]
    ircNickColor := .bool false
    autoSendCommands := none }

/-- The relay the constructor builds from `relayOptions`. -/
def relayBot : Bot :=
  { server := .string (js "irc.example.org")
    nickname := .string (js "relay")
    ircOptions := .undefined
    discordToken := .string (js "token")
    commandCharacters := [js "!"]
    ircNickColor := false
    channels := [.string (js "#IRC secret")]
    channelMapping := [(js "#discord", js "#irc")]
    invertedMapping := [(js "#irc", js "#discord")]
    autoSendCommands := [] }

/-- A configuration whose channel mapping, read from JSON, has the own key `__proto__`. -/
def protoKeyOptions : Options :=
  { relayOptions with
    channelMapping :=
      .object [(js "__proto__", .string (js "#a")), (js "#discord", .string (js "#irc"))] }

/-- A configuration that maps the Discord channel `#a` to an IRC channel named `__proto__`. -/
def protoValueOptions : Options :=
  { relayOptions with channelMapping := .object [(js "#a", .string (js "__proto__"))] }

/-- The guild of the sample: user 123 has the nickname Bob. -/
def sampleGuild : Guild := ⟨[(js "123", ⟨some (js "Bob")⟩)]⟩

/-- The Discord client of the sample: the relay is user 999 and knows channel 42. -/
def sampleDiscord : DiscordClient :=
  ⟨⟨js "999", js "relay"⟩, [(js "42", ⟨some (js "general"), js "text", sampleGuild⟩)], []⟩

/-- A message of user 456 (username alice, no guild nickname) in `#discord` that mentions
user 123. -/
def sampleMessage (content : JSString) (attachments : List Attachment) : Message :=
  { author := ⟨js "456", js "alice"⟩
    channelName := js "discord"
    guild := sampleGuild
    content := content
    mentions := [⟨js "123", js "robert"⟩]
    attachments := attachments }

/-- The guild of the bridged channel: user 123 has the nickname Bob, user 456 is a member
without nickname, user 321 has the nickname Dee. -/
def bridgedGuild : Guild :=
  ⟨[(js "123", ⟨some (js "Bob")⟩), (js "456", ⟨none⟩), (js "321", ⟨some (js "Dee")⟩)]⟩

/-- A Discord client that is in the text channel `discord` (id 7) of `bridgedGuild` and
knows four users, of whom carol (789) is not a member of that guild. -/
def bridgedDiscord : DiscordClient :=
  { user := ⟨js "999", js "relay"⟩
    channels := [(js "6", ⟨some (js "discord"), js "voice", bridgedGuild⟩),
                 (js "7", ⟨some (js "discord"), js "text", bridgedGuild⟩)]
    users := [⟨js "123", js "robert"⟩, ⟨js "456", js "alice"⟩, ⟨js "321", js "dave"⟩,
              ⟨js "789", js "carol"⟩] }

/-- The text of a member, as `GuildMember.toString` of discord.js prints it. -/
def memberMention (m : JSString × GuildMember) : JSString :=
  match m.2.nickname with
  | some (_ :: _) => js "<@!" ++ m.1 ++ js ">"
  | _ => js "<@" ++ m.1 ++ js ">"

/-- The text of a user, as `User.toString` of discord.js prints it. -/
def userMention (u : User) : JSString := js "<@" ++ u.id ++ js ">"

/-! ## Properties of the constructor -/

/-- Reading back the property just assigned. -/
theorem getProp_defineProp_self {α : Type} (o : JSObject α) (k : JSString) (v : α) :
    getProp (defineProp o k v) k = some v := by
  induction o with
  | nil => simp [defineProp, getProp]
  | cons kv rest ih =>
    obtain ⟨k1, v1⟩ := kv
    by_cases h : k1 = k <;> simp [defineProp, getProp, h, ih]

/-- An assignment leaves the other properties alone. -/
theorem getProp_defineProp_ne {α : Type} (o : JSObject α) (k k2 : JSString) (v : α)
    (h : k2 ≠ k) : getProp (defineProp o k v) k2 = getProp o k2 := by
  induction o with
  | nil => simp [defineProp, getProp, Ne.symm h]
  | cons kv rest ih =>
    obtain ⟨k1, v1⟩ := kv
    by_cases h1 : k1 = k
    · subst h1
      simp [defineProp, getProp, Ne.symm h]
    · by_cases h2 : k1 = k2
      · subst h2
        simp [defineProp, getProp, h1]
      · simp [defineProp, getProp, h1, h2, ih]

/-- A property that is read is among the entries. -/
theorem mem_of_getProp {α : Type} (o : JSObject α) (k : JSString) (v : α)
    (h : getProp o k = some v) : (k, v) ∈ o := by
  induction o with
  | nil => simp [getProp] at h
  | cons kv rest ih =>
    obtain ⟨k1, v1⟩ := kv
    by_cases h1 : k1 = k
    · simp [getProp, h1] at h
      simp [h1, h]
    · simp [getProp, h1] at h
      exact List.mem_cons_of_mem _ (ih h)

/-- A name that is no key reads as `undefined`. -/
theorem getProp_eq_none {α : Type} (o : JSObject α) (k : JSString) (h : k ∉ keys o) :
    getProp o k = none := by
  induction o with
  | nil => rfl
  | cons kv rest ih =>
    obtain ⟨k1, v1⟩ := kv
    simp [keys] at h
    have h1 : ¬ k1 = k := fun e => h.1 e.symm
    simp only [getProp, h1, if_false]
    exact ih (by simpa [keys] using h.2)

/-- The names after an assignment: the old ones, and the assigned one at the end if new. -/
theorem keys_defineProp {α : Type} (o : JSObject α) (k : JSString) (v : α) :
    keys (defineProp o k v) = if k ∈ keys o then keys o else keys o ++ [k] := by
  induction o with
  | nil => simp [defineProp, keys]
  | cons kv rest ih =>
    obtain ⟨k1, v1⟩ := kv
    by_cases h1 : k1 = k
    · subst h1
      simp [defineProp, keys]
    · have h2 : ¬ k = k1 := fun e => h1 e.symm
      simp only [keys] at ih
      simp only [defineProp, h1, if_false, keys, List.map_cons, List.mem_cons, h2, false_or, ih]
      split <;> simp

/-- Under a name other than `__proto__`, an assignment creates or updates the own property. -/
theorem setProp_of_ordinary {α : Type} (o : JSObject α) (k : JSString) (v : α)
    (h : k ≠ js "__proto__") : setProp o k v = defineProp o k v := by
  simp [setProp, h]

/-- Under `__proto__`, an assignment leaves the object as it is. -/
theorem setProp_proto {α : Type} (o : JSObject α) (v : α) :
    setProp o (js "__proto__") v = o := by
  simp [setProp]

/-- The read of a name that starts with `#` finds an own property or nothing: no name
inherited from `Object.prototype` starts with `#`. -/
theorem readProp_of_hash {α : Type} (o : JSObject α) (k : JSString) :
    readProp o (35 :: k) =
      match getProp o (35 :: k) with
      | some v => PropRead.own v
      | none => PropRead.undefined := by
  have h : OBJECT_PROTOTYPE_NAMES.contains (35 :: k) = false := by
    simp [OBJECT_PROTOTYPE_NAMES, js]
  simp only [readProp, h]
  cases getProp o (35 :: k) <;> simp

/-- The read of an own property finds its value. -/
theorem readProp_of_getProp {α : Type} (o : JSObject α) (k : JSString) (v : α)
    (h : getProp o k = some v) : readProp o k = PropRead.own v := by
  simp only [readProp, h]

/-- What the `forOwn` loop leaves behind, started from any object, when no configured name
is `__proto__`. -/
theorem buildChannelMapping_spec (toLowerCase : JSString → JSString)
    (entries : List (JSString × JSVal)) :
    ∀ (acc m : JSObject JSString),
      buildChannelMapping toLowerCase entries acc = .ok m →
      (keys entries).Nodup → (∀ k ∈ keys entries, k ∉ keys acc) →
      (∀ k ∈ keys entries, k ≠ js "__proto__") →
      keys m = keys acc ++ keys entries ∧
      (∀ k, k ∉ keys entries → getProp m k = getProp acc k) ∧
      (∀ d v, (d, v) ∈ entries → ∃ ircChan, v = JSVal.string ircChan ∧
        getProp m d = some (toLowerCase (splitFirst ircChan))) := by
  induction entries with
  | nil =>
    intro acc m h _ _ _
    simp only [buildChannelMapping, Except.ok.injEq] at h
    subst h
    simp [keys]
  | cons e rest ih =>
    intro acc m h hnd hdisj hproto
    obtain ⟨d0, v0⟩ := e
    cases v0 with
    | string s0 =>
      simp only [buildChannelMapping] at h
      rw [setProp_of_ordinary _ _ _ (hproto d0 (by simp [keys]))] at h
      have hproto2 : ∀ k ∈ keys rest, k ≠ js "__proto__" := fun k hk =>
        hproto k (by simp only [keys, List.map_cons, List.mem_cons]; exact Or.inr hk)
      simp only [keys, List.map_cons, List.nodup_cons] at hnd
      have hd0 : d0 ∉ keys acc := hdisj d0 (by simp [keys])
      have hkeys : keys (defineProp acc d0 (toLowerCase (splitFirst s0))) = keys acc ++ [d0] := by
        rw [keys_defineProp]; simp [hd0]
      have hdisj2 : ∀ k ∈ keys rest, k ∉ keys (defineProp acc d0 (toLowerCase (splitFirst s0))) := by
        intro k hk
        rw [hkeys]
        simp only [List.mem_append, List.mem_singleton, not_or]
        refine ⟨hdisj k (by simp only [keys, List.map_cons, List.mem_cons]; exact Or.inr hk), ?_⟩
        intro e
        subst e
        exact hnd.1 hk
      obtain ⟨h1, h2, h3⟩ := ih _ m h hnd.2 hdisj2 hproto2
      refine ⟨?_, ?_, ?_⟩
      · rw [h1, hkeys]; simp [keys]
      · intro k hk
        simp only [keys, List.map_cons, List.mem_cons, not_or] at hk
        rw [h2 k hk.2, getProp_defineProp_ne _ _ _ _ hk.1]
      · intro d v hdv
        rcases List.mem_cons.1 hdv with e | hmem
        · simp only [Prod.mk.injEq] at e
          refine ⟨s0, e.2, ?_⟩
          rw [e.1, h2 d0 hnd.1, getProp_defineProp_self]
        · exact h3 d v hmem
    | undefined => simp [buildChannelMapping] at h
    | null => simp [buildChannelMapping] at h
    | bool b => simp [buildChannelMapping] at h
    | number n => simp [buildChannelMapping] at h
    | nan => simp [buildChannelMapping] at h
    | object ps => simp [buildChannelMapping] at h

/-- The constructor succeeds only through its last branch. -/
theorem Bot.new_ok (validateChannelMapping : JSVal → Option JSString)
    (toLowerCase : JSString → JSString) (options : Options) (steps : List CtorStep) (bot : Bot)
    (h : Bot.new validateChannelMapping toLowerCase options = (steps, .ok bot)) :
    ∃ m, buildChannelMapping toLowerCase (ownEntries options.channelMapping) [] = .ok m ∧
      bot.channelMapping = m ∧ bot.invertedMapping = invert m ∧
      bot.commandCharacters = options.commandCharacters.getD [] ∧
      bot.ircNickColor = options.ircNickColor.isNotFalse := by
  unfold Bot.new at h
  split at h
  · simp at h
  · split at h
    · simp at h
    · split at h
      · simp at h
      · next m hm =>
        simp only [Prod.mk.injEq, Except.ok.injEq] at h
        refine ⟨m, hm, ?_⟩
        rw [← h.2]
        simp

/-- What a fold of property definitions, values as names, leaves behind. -/
theorem defineProp_fold_spec (fwd : JSObject JSString) :
    ∀ (acc : JSObject JSString) (i : JSString),
      (i ∈ keys (fwd.foldl (fun result kv => defineProp result kv.2 kv.1) acc) ↔
        i ∈ keys acc ∨ ∃ d, (d, i) ∈ fwd) ∧
      getProp (fwd.foldl (fun result kv => defineProp result kv.2 kv.1) acc) i =
        ((fwd.reverse.find? (fun kv => decide (kv.2 = i))).map Prod.fst).or (getProp acc i) := by
  induction fwd with
  | nil => intro acc i; simp
  | cons e rest ih =>
    intro acc i
    obtain ⟨d0, i0⟩ := e
    obtain ⟨h1, h2⟩ := ih (defineProp acc i0 d0) i
    simp only [List.foldl_cons]
    refine ⟨?_, ?_⟩
    · rw [h1, keys_defineProp]
      by_cases hi : i = i0
      · subst hi
        split <;> simp_all
      · constructor
        · rintro (h | ⟨d, hd⟩)
          · split at h
            · exact Or.inl h
            · rcases List.mem_append.1 h with h | h
              · exact Or.inl h
              · exact absurd (List.mem_singleton.1 h) hi
          · exact Or.inr ⟨d, List.mem_cons_of_mem _ hd⟩
        · rintro (h | ⟨d, hd⟩)
          · left
            split
            · exact h
            · exact List.mem_append_left _ h
          · rcases List.mem_cons.1 hd with e | hd
            · cases e; exact absurd rfl hi
            · exact Or.inr ⟨d, hd⟩
    · rw [h2, List.reverse_cons, List.find?_append]
      cases hf : List.find? (fun kv => decide (kv.2 = i)) rest.reverse with
      | some kv => simp
      | none =>
        by_cases hi : i0 = i
        · subst hi
          simp [getProp_defineProp_self]
        · have hi2 : i ≠ i0 := fun e => hi e.symm
          simp [hi, getProp_defineProp_ne _ _ _ _ hi2]

/-- Searching a filtered list for something that passes the filter is searching the list. -/
theorem find_filter_of_imp {β : Type} (p q : β → Bool) (l : List β)
    (h : ∀ a, q a = true → p a = true) : (l.filter p).find? q = l.find? q := by
  induction l with
  | nil => rfl
  | cons a rest ih =>
    by_cases hq : q a = true
    · simp [List.filter, h a hq, List.find?, hq]
    · by_cases hp : p a = true
      · simp [List.filter, hp, List.find?, hq, ih]
      · simp [List.filter, hp, List.find?, hq, ih]

/-- The assignments of `invert` under `__proto__` leave nothing: the fold is that of the
property definitions for the entries with another value. -/
theorem invert_fold_filter (fwd : JSObject JSString) :
    ∀ acc : JSObject JSString,
      fwd.foldl (fun result kv => setProp result kv.2 kv.1) acc =
        (fwd.filter (fun kv => !decide (kv.2 = js "__proto__"))).foldl
          (fun result kv => defineProp result kv.2 kv.1) acc := by
  induction fwd with
  | nil => intro acc; rfl
  | cons e rest ih =>
    intro acc
    obtain ⟨d0, i0⟩ := e
    by_cases hp : i0 = js "__proto__"
    · subst hp
      simp only [List.foldl_cons, setProp_proto]
      rw [ih acc]
      simp [List.filter]
    · simp only [List.foldl_cons, setProp_of_ordinary _ _ _ hp]
      rw [ih]
      simp [List.filter, hp]

/-- What `invert` leaves behind under a name other than `__proto__`, started from any
object. -/
theorem invert_fold_spec (fwd : JSObject JSString) (acc : JSObject JSString) (i : JSString)
    (hi : i ≠ js "__proto__") :
    (i ∈ keys (fwd.foldl (fun result kv => setProp result kv.2 kv.1) acc) ↔
      i ∈ keys acc ∨ ∃ d, (d, i) ∈ fwd) ∧
    getProp (fwd.foldl (fun result kv => setProp result kv.2 kv.1) acc) i =
      ((fwd.reverse.find? (fun kv => decide (kv.2 = i))).map Prod.fst).or (getProp acc i) := by
  obtain ⟨h1, h2⟩ :=
    defineProp_fold_spec (fwd.filter (fun kv => !decide (kv.2 = js "__proto__"))) acc i
  rw [invert_fold_filter]
  refine ⟨?_, ?_⟩
  · rw [h1]
    constructor
    · rintro (h | ⟨d, hd⟩)
      · exact Or.inl h
      · exact Or.inr ⟨d, (List.mem_filter.1 hd).1⟩
    · rintro (h | ⟨d, hd⟩)
      · exact Or.inl h
      · exact Or.inr ⟨d, List.mem_filter.2 ⟨hd, by simpa using hi⟩⟩
  · rw [h2, ← List.filter_reverse, find_filter_of_imp]
    intro kv hk
    have hk2 : kv.2 = i := by simpa using hk
    simpa [hk2] using hi

/-- The entries that `invert` makes never carry the name `__proto__`. -/
theorem invert_no_proto (fwd : JSObject JSString) : js "__proto__" ∉ keys (invert fwd) := by
  intro h
  unfold invert at h
  rw [invert_fold_filter] at h
  rcases (defineProp_fold_spec _ [] (js "__proto__")).1.1 h with h0 | ⟨d, hd⟩
  · simp [keys] at h0
  · have := (List.mem_filter.1 hd).2
    simp at this

/-- Claim C1. When one of the fields `server`, `nickname`, `channelMapping`, `discordToken` of
the options is absent or falsy, the constructor throws a `ConfigurationError` whose message
is `Missing configuration field` followed by the first such field in that order, and it
does so before any step of the construction (validation of the mapping, creation of the
Discord client, building of the mappings) has been performed; this holds whatever the
validator and the lowercasing function are. -/
theorem constructor_missing_field (validateChannelMapping : JSVal → Option JSString)
    (toLowerCase : JSString → JSString) (options : Options)
    (h : ∃ g ∈ REQUIRED_FIELDS, (options.get g).truthy = false) :
    ∃ pre f post, REQUIRED_FIELDS = pre ++ f :: post ∧
      (∀ g ∈ pre, (options.get g).truthy = true) ∧ (options.get f).truthy = false ∧
      Bot.new validateChannelMapping toLowerCase options =
        ([], .error (.configurationError (js "Missing configuration field " ++ f))) := by
  cases hfind : REQUIRED_FIELDS.find? (fun field => !(options.get field).truthy) with
  | none =>
    obtain ⟨g, hg, hgf⟩ := h
    rw [List.find?_eq_none] at hfind
    have := hfind g hg
    simp [hgf] at this
  | some f =>
    obtain ⟨hp, pre, post, hsplit, hpre⟩ := List.find?_eq_some.1 hfind
    refine ⟨pre, f, post, hsplit, ?_, ?_, ?_⟩
    · intro g hg
      simpa using hpre g hg
    · simpa using hp
    · simp only [Bot.new, hfind]

/-- The missing-field error at a configuration without Discord token. -/
theorem constructor_missing_field_witness :
    (∃ g ∈ REQUIRED_FIELDS, (optionsWithoutToken.get g).truthy = false) ∧
    ∃ pre f post, REQUIRED_FIELDS = pre ++ f :: post ∧
      (∀ g ∈ pre, (optionsWithoutToken.get g).truthy = true) ∧
      (optionsWithoutToken.get f).truthy = false ∧
      Bot.new (fun _ => none) id optionsWithoutToken =
        ([], .error (.configurationError (js "Missing configuration field " ++ f))) :=
  have h : ∃ g ∈ REQUIRED_FIELDS, (optionsWithoutToken.get g).truthy = false :=
    ⟨js "discordToken", by decide, by decide⟩
  ⟨h, constructor_missing_field (fun _ => none) id optionsWithoutToken h⟩

/-- For a configuration the constructor accepts and whose Discord channel names are not
`__proto__`, the forward mapping has exactly the keys of `options.channelMapping`, in the
same order, and under each key the lowercased form of the part of the configured IRC
value that precedes its first space. -/
theorem constructor_forward_mapping_of_ordinary
    (validateChannelMapping : JSVal → Option JSString)
    (toLowerCase : JSString → JSString) (options : Options) (steps : List CtorStep) (bot : Bot)
    (hnodup : (keys (ownEntries options.channelMapping)).Nodup)
    (hordinary : ∀ k ∈ keys (ownEntries options.channelMapping), k ≠ js "__proto__")
    (h : Bot.new validateChannelMapping toLowerCase options = (steps, .ok bot)) :
    keys bot.channelMapping = keys (ownEntries options.channelMapping) ∧
    ∀ d v, getProp (ownEntries options.channelMapping) d = some v →
      ∃ ircChan, v = JSVal.string ircChan ∧
        getProp bot.channelMapping d = some (toLowerCase (splitFirst ircChan)) := by
  obtain ⟨m, hm, hcm, _⟩ := Bot.new_ok _ _ _ _ _ h
  obtain ⟨h1, _, h3⟩ :=
    buildChannelMapping_spec toLowerCase _ [] m hm hnodup (by simp [keys]) hordinary
  rw [hcm]
  refine ⟨by simpa [keys] using h1, ?_⟩
  intro d v hdv
  exact h3 d v (mem_of_getProp _ _ _ hdv)

/-- The names other than `__proto__` that are keys of the inverted mapping are exactly those
that occur as values of the forward mapping, and under each of them stands the Discord
channel of the last entry of the forward mapping, in enumeration order, that holds it;
`__proto__` is never a key of the inverted mapping. -/
theorem invert_keeps_last_of_ordinary (fwd : JSObject JSString) :
    (∀ i, i ≠ js "__proto__" →
      (i ∈ keys (invert fwd) ↔ ∃ d, (d, i) ∈ fwd) ∧
      getProp (invert fwd) i =
        (fwd.reverse.find? (fun kv => decide (kv.2 = i))).map Prod.fst) ∧
    js "__proto__" ∉ keys (invert fwd) := by
  refine ⟨?_, invert_no_proto fwd⟩
  intro i hi
  refine ⟨?_, ?_⟩
  · have := (invert_fold_spec fwd [] i hi).1
    simpa [keys, invert] using this
  · have := (invert_fold_spec fwd [] i hi).2
    simpa [getProp, invert] using this

/-- The sample relay is what the constructor builds from the sample configuration. -/
theorem relayBot_constructed :
    Bot.new (fun _ => none) asciiToLowerCase relayOptions =
      ([.channelMappingValidated, .discordClientCreated, .channelMappingBuilt,
        .mappingInverted], .ok relayBot) :=
  rfl

/-- Claim C2, at a failing input. A configuration whose channel mapping has the own key
`__proto__`, as a JSON file can give it, is accepted, but the assignment
`this.channelMapping['__proto__'] = ...` creates no property: the forward mapping has the
key `#discord` only, and not the two keys of `options.channelMapping`. -/
theorem constructor_drops_proto_key :
    keys (ownEntries protoKeyOptions.channelMapping) = [js "__proto__", js "#discord"] ∧
    ∃ steps bot,
      Bot.new (fun _ => none) asciiToLowerCase protoKeyOptions = (steps, .ok bot) ∧
      keys bot.channelMapping = [js "#discord"] ∧
      getProp bot.channelMapping (js "__proto__") = none :=
  ⟨rfl, _, _, rfl, rfl, rfl⟩

/-- Claim C3, at a failing input. The forward mapping in which `#a` holds the IRC channel
name `__proto__` and `#b` holds `#irc` is inverted to the single entry `#irc` to `#b`: the
assignment `result['__proto__'] = '#a'` creates no property, so that a forward value is
not a key of the inverted mapping. -/
theorem invert_drops_proto_value :
    (js "#a", js "__proto__") ∈ [(js "#a", js "__proto__"), (js "#b", js "#irc")] ∧
    invert [(js "#a", js "__proto__"), (js "#b", js "#irc")] = [(js "#irc", js "#b")] ∧
    js "__proto__" ∉ keys (invert [(js "#a", js "__proto__"), (js "#b", js "#irc")]) :=
  ⟨by decide, by decide, by decide⟩

/-! ## Properties of `sendToIRC` -/

/-- Claim C4. A message whose author is the relay itself leads to no line at all on the IRC
client, whatever its channel, content and attachments. -/
theorem sendToIRC_ignores_own_messages
    (colorsWrap : Option JSString → JSString → JSString) (bot : Bot) (discord : DiscordClient)
    (message : Message) (hself : message.author.id = discord.user.id) :
    sendToIRC colorsWrap bot discord message = .ok [] := by
  simp [sendToIRC, hself]

/-- A message of the relay itself, with text and attachment, at the sample relay. -/
theorem sendToIRC_ignores_own_messages_witness :
    sendToIRC plainWrap relayBot sampleDiscord
      { sampleMessage (js "hello") [⟨js "http://x/a.png"⟩] with author := ⟨js "999", js "relay"⟩ }
      = .ok [] :=
  sendToIRC_ignores_own_messages plainWrap relayBot sampleDiscord _ rfl

/-- The lines of `sendToIRC` all carry the looked-up IRC channel as target. -/
theorem sendToIRC_target_of_mem
    (colorsWrap : Option JSString → JSString → JSString) (bot : Bot) (discord : DiscordClient)
    (message : Message) (sends : List IrcSay)
    (h : sendToIRC colorsWrap bot discord message = .ok sends) (s : IrcSay) (hs : s ∈ sends) :
    getProp bot.channelMapping (35 :: message.channelName) = some s.target := by
  unfold sendToIRC at h
  split at h
  · simp only [Except.ok.injEq] at h; subst h; simp at hs
  · split at h
    · simp only [Except.ok.injEq] at h; subst h; simp at hs
    · next ircChannel hirc =>
      rw [hirc]
      split at h
      · simp only [Except.ok.injEq] at h; subst h; simp at hs
      · simp only at h
        split at h
        · simp at h
        · split at h
          · simp only [Except.ok.injEq] at h
            subst h
            simp only [List.mem_cons, List.mem_singleton, List.not_mem_nil, or_false] at hs
            rcases hs with e | e <;> simp [e]
          · simp only [Except.ok.injEq] at h
            subst h
            rcases List.mem_append.1 hs with h1 | h1
            · split at h1
              · simp at h1
              · simp only [List.mem_singleton] at h1
                simp [h1]
            · obtain ⟨a, _, ha⟩ := List.mem_map.1 h1
              simp [← ha]

/-- The outcome of `sendToIRC` for a message of another author in a bridged channel
whose text is transformed without error. -/
theorem sendToIRC_of_mapped
    (colorsWrap : Option JSString → JSString → JSString) (bot : Bot) (discord : DiscordClient)
    (message : Message) (ircChannel text : JSString)
    (hother : message.author.id ≠ discord.user.id)
    (hmapped : getProp bot.channelMapping (35 :: message.channelName) = some ircChannel)
    (hirc : ircChannel ≠ [])
    (htext : parseText discord message = .ok text) :
    sendToIRC colorsWrap bot discord message =
      .ok (if isCommandMessage bot text = true then
            [⟨ircChannel, js "Command sent from Discord by " ++
                getDiscordNicknameOnServer message.author message.guild ++ js ":"⟩,
             ⟨ircChannel, text⟩]
          else
            (if text = [] then []
             else [⟨ircChannel, js "<" ++ displayUsername colorsWrap bot
                    (getDiscordNicknameOnServer message.author message.guild) ++ js "> " ++
                    text⟩])
            ++ message.attachments.map (fun a =>
                (⟨ircChannel, js "<" ++ displayUsername colorsWrap bot
                    (getDiscordNicknameOnServer message.author message.guild) ++ js "> " ++
                    a.url⟩ : IrcSay))) := by
  have hne : ircChannel.isEmpty = false := by
    cases ircChannel with
    | nil => exact absurd rfl hirc
    | cons _ _ => rfl
  simp only [sendToIRC, hother, if_false, hmapped, hne, htext, Bool.false_eq_true]
  cases isCommandMessage bot text
  · cases text <;> simp
  · simp

/-- A text that starts with a command character is a command message. -/
theorem isCommandMessage_of_first (bot : Bot) (c : Nat) (rest : JSString)
    (hcmd : [c] ∈ bot.commandCharacters) : isCommandMessage bot (c :: rest) = true := by
  simp only [isCommandMessage, List.contains_iff_exists_mem_beq]
  exact ⟨[c], hcmd, by simp⟩

/-- Claim C5. Every line `sendToIRC` says is addressed to the IRC channel that the forward
mapping holds under `#` followed by the name of the message channel; when the mapping has
no entry under that key, `sendToIRC` returns without saying anything. -/
theorem sendToIRC_targets_mapped_channel
    (colorsWrap : Option JSString → JSString → JSString) (bot : Bot) (discord : DiscordClient)
    (message : Message) :
    (getProp bot.channelMapping (35 :: message.channelName) = none →
      sendToIRC colorsWrap bot discord message = .ok []) ∧
    (∀ sends, sendToIRC colorsWrap bot discord message = .ok sends →
      ∀ s ∈ sends, getProp bot.channelMapping (35 :: message.channelName) = some s.target) := by
  exact ⟨fun h => by simp [sendToIRC, h],
    fun sends h s hs => sendToIRC_target_of_mem colorsWrap bot discord message sends h s hs⟩

/-- A message in a channel that is not bridged, and one in the bridged channel. -/
theorem sendToIRC_targets_mapped_channel_witness :
    sendToIRC plainWrap relayBot sampleDiscord
        { sampleMessage (js "hello") [] with channelName := js "elsewhere" } = .ok [] ∧
    getProp relayBot.channelMapping (35 :: (sampleMessage (js "hello") []).channelName)
      = some (js "#irc") :=
  ⟨(sendToIRC_targets_mapped_channel plainWrap relayBot sampleDiscord
      { sampleMessage (js "hello") [] with channelName := js "elsewhere" }).1 rfl,
   (sendToIRC_targets_mapped_channel plainWrap relayBot sampleDiscord
      (sampleMessage (js "hello") [])).2 [⟨js "#irc", js "<alice> hello"⟩] rfl
      ⟨js "#irc", js "<alice> hello"⟩ (List.mem_singleton.2 rfl)⟩

/-- Claim C6. For a message of another author in a channel mapped to a non-empty IRC channel
name, when the text `parseText` returns starts with one of the command characters,
`sendToIRC` says exactly two lines on the mapped IRC channel: first
`Command sent from Discord by ` followed by the plain display name and a colon, then the
transformed text as it is; the attachments are not relayed. -/
theorem sendToIRC_command_message
    (colorsWrap : Option JSString → JSString → JSString) (bot : Bot) (discord : DiscordClient)
    (message : Message) (ircChannel text : JSString) (c : Nat) (rest : JSString)
    (hother : message.author.id ≠ discord.user.id)
    (hmapped : getProp bot.channelMapping (35 :: message.channelName) = some ircChannel)
    (hirc : ircChannel ≠ [])
    (htext : parseText discord message = .ok text)
    (hfirst : text = c :: rest) (hcmd : [c] ∈ bot.commandCharacters) :
    sendToIRC colorsWrap bot discord message =
      .ok [⟨ircChannel, js "Command sent from Discord by " ++
              getDiscordNicknameOnServer message.author message.guild ++ js ":"⟩,
           ⟨ircChannel, text⟩] := by
  rw [sendToIRC_of_mapped colorsWrap bot discord message ircChannel text hother hmapped hirc
    htext, hfirst, isCommandMessage_of_first bot c rest hcmd]
  simp

/-- A command message with an attachment at the sample relay. -/
theorem sendToIRC_command_message_witness :
    sendToIRC plainWrap relayBot sampleDiscord
        (sampleMessage (js "!kick <@123>") [⟨js "http://x/a.png"⟩]) =
      .ok [⟨js "#irc", js "Command sent from Discord by alice:"⟩,
           ⟨js "#irc", js "!kick @Bob"⟩] :=
  sendToIRC_command_message plainWrap relayBot sampleDiscord
    (sampleMessage (js "!kick <@123>") [⟨js "http://x/a.png"⟩]) (js "#irc") (js "!kick @Bob")
    33 (js "kick @Bob") (by decide) rfl (by decide) rfl rfl (by decide)

/-- Claim C7. For a message of another author in a channel mapped to a non-empty IRC channel
name, when the text `parseText` returns is not a command message, `sendToIRC` says the line
`<name> text` exactly when the text is not empty, and then one line `<name> url` for each
attachment, in their order, whether or not the text line was said; the number of lines is
the number of attachments, plus one when the text is not empty. -/
theorem sendToIRC_normal_message
    (colorsWrap : Option JSString → JSString → JSString) (bot : Bot) (discord : DiscordClient)
    (message : Message) (ircChannel text : JSString)
    (hother : message.author.id ≠ discord.user.id)
    (hmapped : getProp bot.channelMapping (35 :: message.channelName) = some ircChannel)
    (hirc : ircChannel ≠ [])
    (htext : parseText discord message = .ok text)
    (hnocmd : isCommandMessage bot text = false) :
    ∃ sends, sendToIRC colorsWrap bot discord message = .ok sends ∧
      sends =
        (if text = [] then []
         else [⟨ircChannel, js "<" ++ displayUsername colorsWrap bot
                  (getDiscordNicknameOnServer message.author message.guild) ++ js "> " ++ text⟩])
        ++ message.attachments.map (fun a =>
            (⟨ircChannel, js "<" ++ displayUsername colorsWrap bot
                (getDiscordNicknameOnServer message.author message.guild) ++ js "> " ++ a.url⟩
              : IrcSay)) ∧
      sends.length = (if text = [] then 0 else 1) + message.attachments.length := by
  refine ⟨_, ?_, rfl, ?_⟩
  · rw [sendToIRC_of_mapped colorsWrap bot discord message ircChannel text hother hmapped hirc
      htext, hnocmd]
    simp
  · cases text <;> simp [Nat.add_comm]

/-- A message with text and two attachments at the sample relay. -/
theorem sendToIRC_normal_message_witness :
    ∃ sends : List IrcSay,
      sendToIRC plainWrap relayBot sampleDiscord
        (sampleMessage (js "hi <@123>") [⟨js "http://x/a.png"⟩, ⟨js "http://x/b.png"⟩]) =
          .ok sends ∧
      sends =
        (if js "hi @Bob" = [] then []
         else [⟨js "#irc", js "<" ++ displayUsername plainWrap relayBot
                  (getDiscordNicknameOnServer ⟨js "456", js "alice"⟩ sampleGuild) ++ js "> " ++
                  js "hi @Bob"⟩])
        ++ ([⟨js "http://x/a.png"⟩, ⟨js "http://x/b.png"⟩] : List Attachment).map (fun a =>
            (⟨js "#irc", js "<" ++ displayUsername plainWrap relayBot
                (getDiscordNicknameOnServer ⟨js "456", js "alice"⟩ sampleGuild) ++ js "> " ++
                a.url⟩ : IrcSay)) ∧
      sends.length = (if js "hi @Bob" = [] then 0 else 1) + 2 :=
  sendToIRC_normal_message plainWrap relayBot sampleDiscord
    (sampleMessage (js "hi <@123>") [⟨js "http://x/a.png"⟩, ⟨js "http://x/b.png"⟩])
    (js "#irc") (js "hi @Bob") (by decide) rfl (by decide) rfl rfl

/-- Claim C8 fails as stated. In the bridged channel of the sample relay, a message of
another author with empty content and no attachment is not relayed at all, and a command
message without attachment is relayed as two lines, not one. -/
theorem sendToIRC_at_least_one_send_counterexample :
    ((sampleMessage [] []).author.id ≠ sampleDiscord.user.id ∧
      getProp relayBot.channelMapping (35 :: (sampleMessage [] []).channelName)
        = some (js "#irc") ∧
      ¬ ∃ sends, sendToIRC plainWrap relayBot sampleDiscord (sampleMessage [] []) = .ok sends ∧
          1 ≤ sends.length) ∧
    ((sampleMessage (js "!help") []).attachments = [] ∧
      ¬ ∃ sends,
          sendToIRC plainWrap relayBot sampleDiscord (sampleMessage (js "!help") []) = .ok sends ∧
          sends.length = 1) := by
  refine ⟨⟨by decide, rfl, ?_⟩, rfl, ?_⟩
  · rintro ⟨sends, h, hlen⟩
    have h0 : sendToIRC plainWrap relayBot sampleDiscord (sampleMessage [] []) = .ok [] := rfl
    rw [h0] at h
    simp only [Except.ok.injEq] at h
    subst h
    simp at hlen
  · rintro ⟨sends, h, hlen⟩
    have h0 : sendToIRC plainWrap relayBot sampleDiscord (sampleMessage (js "!help") []) =
        .ok [⟨js "#irc", js "Command sent from Discord by alice:"⟩, ⟨js "#irc", js "!help"⟩] :=
      rfl
    rw [h0] at h
    simp only [Except.ok.injEq] at h
    subst h
    simp at hlen

/-- Claim C8, amended. For a message of another author in a channel mapped to a non-empty IRC
channel name, whose text `parseText` transforms without error and which has a non-empty
transformed text or at least one attachment, `sendToIRC` says at least one line and every
line goes to the mapped IRC channel; the number of lines is two for a command message, and
otherwise the number of attachments plus one when the text is not empty (so exactly one
for a message with text and without attachments). -/
theorem sendToIRC_send_count
    (colorsWrap : Option JSString → JSString → JSString) (bot : Bot) (discord : DiscordClient)
    (message : Message) (ircChannel text : JSString)
    (hother : message.author.id ≠ discord.user.id)
    (hmapped : getProp bot.channelMapping (35 :: message.channelName) = some ircChannel)
    (hirc : ircChannel ≠ [])
    (htext : parseText discord message = .ok text)
    (hsome : text ≠ [] ∨ message.attachments ≠ []) :
    ∃ sends, sendToIRC colorsWrap bot discord message = .ok sends ∧
      1 ≤ sends.length ∧ (∀ s ∈ sends, s.target = ircChannel) ∧
      sends.length =
        if isCommandMessage bot text = true then 2
        else (if text = [] then 0 else 1) + message.attachments.length := by
  have heq := sendToIRC_of_mapped colorsWrap bot discord message ircChannel text hother hmapped
    hirc htext
  refine ⟨_, heq, ?_, ?_, ?_⟩
  · cases isCommandMessage bot text
    · rcases hsome with h | h
      · simp [h]
      · have : 0 < message.attachments.length := List.length_pos.2 h
        simp only [Bool.false_eq_true, if_false, List.length_append, List.length_map]
        omega
    · simp
  · intro s hs
    have := sendToIRC_target_of_mem colorsWrap bot discord message _ heq s hs
    rw [hmapped] at this
    exact (Option.some.inj this).symm
  · cases isCommandMessage bot text
    · cases text <;> simp [Nat.add_comm]
    · simp

/-- A message with text and one attachment at the sample relay. -/
theorem sendToIRC_send_count_witness :
    ∃ sends,
      sendToIRC plainWrap relayBot sampleDiscord
        (sampleMessage (js "hi") [⟨js "http://x/a.png"⟩]) = .ok sends ∧
      1 ≤ sends.length ∧ (∀ s ∈ sends, s.target = js "#irc") ∧
      sends.length =
        if isCommandMessage relayBot (js "hi") = true then 2
        else (if js "hi" = [] then 0 else 1) +
          (sampleMessage (js "hi") [⟨js "http://x/a.png"⟩]).attachments.length :=
  sendToIRC_send_count plainWrap relayBot sampleDiscord
    (sampleMessage (js "hi") [⟨js "http://x/a.png"⟩]) (js "#irc") (js "hi")
    (by decide) rfl (by decide) rfl (Or.inl (by decide))

/-! ## Properties of `parseText` -/

/-- Claim C9, at a failing input. When the content mentions user 123 twice, only the first
token is replaced by the display name: the second token is still in the text that
`parseText` returns. -/
theorem parseText_repeated_mention :
    parseText sampleDiscord (sampleMessage (js "<@123> <@123>") []) = .ok (js "@Bob <@123>") :=
  rfl

/-- The newline step leaves no line feed and no carriage return. -/
theorem replaceNewlines_noLineBreak (s : JSString) : NoLineBreak (replaceNewlines s) := by
  induction s using replaceNewlines.induct with
  | case1 => intro c hc; simp [replaceNewlines] at hc
  | case2 c h => intro x hx; simp [replaceNewlines, h] at hx; simp [hx]
  | case3 c h =>
    intro x hx
    simp only [replaceNewlines, h, if_false, List.mem_singleton] at hx
    subst hx
    exact ⟨fun e => h (Or.inl e), fun e => h (Or.inr e)⟩
  | case4 d rest ih =>
    intro x hx
    simp only [replaceNewlines, if_true, List.mem_cons] at hx
    rcases hx with e | hx
    · simp [e]
    · exact ih x hx
  | case5 rest _ ih =>
    intro x hx
    simp [replaceNewlines] at hx
    rcases hx with e | hx
    · simp [e]
    · exact ih x hx
  | case6 d rest hd _ ih =>
    intro x hx
    simp [replaceNewlines, hd] at hx
    rcases hx with e | hx
    · simp [e]
    · exact ih x hx
  | case7 c d rest h1 h2 ih =>
    intro x hx
    simp only [replaceNewlines, h1, h2, if_false, List.mem_cons] at hx
    rcases hx with e | hx
    · subst e; exact ⟨h1, h2⟩
    · exact ih x hx

/-- The newline step does what the specification says. -/
theorem replaceNewlines_collapsed (s : JSString) : NewlinesCollapsed s (replaceNewlines s) := by
  induction s using replaceNewlines.induct with
  | case1 => simpa [replaceNewlines] using NewlinesCollapsed.done
  | case2 c h =>
    simp only [replaceNewlines, h, if_true]
    rcases h with h | h
    · subst h; exact NewlinesCollapsed.lf NewlinesCollapsed.done
    · subst h; exact NewlinesCollapsed.cr (by simp) NewlinesCollapsed.done
  | case3 c h =>
    simp only [replaceNewlines, h, if_false]
    exact NewlinesCollapsed.keep (fun e => h (Or.inl e)) (fun e => h (Or.inr e))
      NewlinesCollapsed.done
  | case4 d rest ih =>
    simp only [replaceNewlines, if_true]
    exact NewlinesCollapsed.lf ih
  | case5 rest _ ih =>
    have e : replaceNewlines (13 :: 10 :: rest) = 32 :: replaceNewlines rest := by
      simp [replaceNewlines]
    rw [e]
    exact NewlinesCollapsed.crlf ih
  | case6 d rest hd _ ih =>
    have e : replaceNewlines (13 :: d :: rest) = 32 :: replaceNewlines (d :: rest) := by
      simp [replaceNewlines, hd]
    rw [e]
    exact NewlinesCollapsed.cr (by simpa using hd) ih
  | case7 c d rest h1 h2 ih =>
    simp only [replaceNewlines, h1, h2, if_false]
    exact NewlinesCollapsed.keep h1 h2 ih

/-- The specification of the newline step determines its result. -/
theorem NewlinesCollapsed.eq_replaceNewlines {s t : JSString} (h : NewlinesCollapsed s t) :
    t = replaceNewlines s := by
  induction h with
  | done => simp [replaceNewlines]
  | @crlf s t _ ih => subst ih; simp [replaceNewlines]
  | @lf s t _ ih =>
    subst ih
    cases s <;> simp [replaceNewlines]
  | @cr s t hs _ ih =>
    subst ih
    cases s with
    | nil => simp [replaceNewlines]
    | cons d rest =>
      have hd : ¬ d = 10 := by simpa using hs
      simp [replaceNewlines, hd]
  | @keep c s t h1 h2 _ ih =>
    subst ih
    cases s <;> simp [replaceNewlines, h1, h2]

/-- A global replacement keeps a property of code units that holds of the text and of
every replacement made for a match inside the text. -/
theorem replaceAll_forall {α : Type} (P : Nat → Prop) (matchAt : JSString → Option (α × Nat))
    (replacer : α → Except JSError JSString) (text : JSString)
    (hrep : ∀ suf group len r, suf <:+ text → matchAt suf = some (group, len) →
      replacer group = .ok r → ∀ c ∈ r, P c) :
    ∀ (suf : JSString) (skip : Nat) (out : JSString), suf <:+ text →
      replaceAll matchAt replacer skip suf = .ok out → (∀ c ∈ suf, P c) → ∀ c ∈ out, P c := by
  intro suf
  induction suf with
  | nil =>
    intro skip out _ h _ c hc
    simp only [replaceAll, Except.ok.injEq] at h
    subst h
    simp at hc
  | cons a rest ih =>
    intro skip out hsuf h hP c hc
    have hrest : rest <:+ text := List.IsSuffix.trans (List.suffix_cons a rest) hsuf
    have hPrest : ∀ c ∈ rest, P c := fun c hc => hP c (List.mem_cons_of_mem _ hc)
    cases skip with
    | succ n =>
      simp only [replaceAll] at h
      exact ih n out hrest h hPrest c hc
    | zero =>
      simp only [replaceAll] at h
      split at h
      · next group len hm =>
        split at h
        · simp at h
        · next r hr =>
          split at h
          · simp at h
          · next out2 hout2 =>
            simp only [Except.ok.injEq] at h
            subst h
            rcases List.mem_append.1 hc with h1 | h1
            · exact hrep _ group len r hsuf hm hr c h1
            · exact ih (len - 1) out2 hrest hout2 hPrest c h1
      · split at h
        · simp at h
        · next out2 hout2 =>
          simp only [Except.ok.injEq] at h
          subst h
          rcases List.mem_cons.1 hc with h1 | h1
          · subst h1; exact hP c (List.mem_cons_self _ _)
          · exact ih 0 out2 hrest hout2 hPrest c h1

/-- A match of a channel reference spells `<#`, the captured digits and `>`. -/
theorem matchChannelRef_shape (suf id : JSString) (len : Nat)
    (h : matchChannelRef suf = some (id, len)) :
    ∃ tail, suf = js "<#" ++ id ++ js ">" ++ tail := by
  unfold matchChannelRef at h
  split at h
  · next a b rest =>
    split at h
    · next hab =>
      split at h
      · next c tail hdrop =>
        split at h
        · next hc =>
          simp only [Option.some.injEq, Prod.mk.injEq] at h
          refine ⟨tail, ?_⟩
          have hjoin := List.takeWhile_append_dropWhile isDigit rest
          rw [hdrop, h.1, hc.1] at hjoin
          rw [hab.1, hab.2, ← hjoin]
          simp [js]
        · simp at h
      · simp at h
    · simp at h
  · simp at h

/-- The captured shortcode of an emote is made of colons and word characters. -/
theorem matchEmote_group (suf group : JSString) (len : Nat)
    (h : matchEmote suf = some (group, len)) : ∀ c ∈ group, c = 58 ∨ isWordChar c = true := by
  unfold matchEmote at h
  split at h
  · next a b rest =>
    split at h
    · split at h
      · next c rest2 hdrop =>
        split at h
        · split at h
          · split at h
            · simp only [Option.some.injEq, Prod.mk.injEq] at h
              intro x hx
              rw [← h.1] at hx
              rcases List.mem_cons.1 hx with e | hx
              · exact Or.inl e
              · rcases List.mem_append.1 hx with hx | hx
                · exact Or.inr (List.mem_takeWhile_imp hx)
                · exact Or.inl (List.mem_singleton.1 hx)
            · simp at h
          · simp at h
        · simp at h
      · simp at h
    · simp at h
  · simp at h

/-- A word character is neither a line feed nor a carriage return. -/
theorem isWordChar_ne_lineBreak (c : Nat) (h : c = 58 ∨ isWordChar c = true) :
    c ≠ 10 ∧ c ≠ 13 := by
  rcases h with h | h
  · subst h; decide
  · simp only [isWordChar, isDigit, Bool.or_eq_true, Bool.and_eq_true, decide_eq_true_eq] at h
    omega

/-- Claim C10. When the channels that the text refers to have names without line breaks,
the text `parseText` returns holds neither a line feed nor a carriage return; it is
obtained from the content with its mentions substituted by first replacing each newline
variant (a carriage return followed by a line feed, a line feed, a carriage return) by
exactly one space, as the specification of the newline step says, and then replacing the
channel references and the emotes. -/
theorem parseText_no_line_break (discord : DiscordClient) (message : Message) (out : JSString)
    (hnames : ∀ id channel, getProp discord.channels id = some channel →
      (js "<#" ++ id ++ js ">") <:+: replaceNewlines (replaceMentions message) →
      NoLineBreak (templateString channel.name))
    (h : parseText discord message = .ok out) :
    (10 ∉ out ∧ 13 ∉ out) ∧
    ∃ collapsed withChannels,
      NewlinesCollapsed (replaceMentions message) collapsed ∧
      (∀ t, NewlinesCollapsed (replaceMentions message) t → t = collapsed) ∧
      replaceAll matchChannelRef (channelRefReplacer discord) 0 collapsed = .ok withChannels ∧
      replaceAll matchEmote (fun emoteName => .ok emoteName) 0 withChannels = .ok out := by
  unfold parseText at h
  split at h
  · simp at h
  · next withChannels hwc =>
    have h1 : NoLineBreak withChannels := by
      refine replaceAll_forall (fun c => c ≠ 10 ∧ c ≠ 13) matchChannelRef
        (channelRefReplacer discord) (replaceNewlines (replaceMentions message)) ?_
        _ 0 withChannels (List.suffix_refl _) hwc (replaceNewlines_noLineBreak _)
      intro suf id len r hsuf hm hr
      obtain ⟨tail, htail⟩ := matchChannelRef_shape suf id len hm
      unfold channelRefReplacer at hr
      split at hr
      · next channel hch =>
        simp only [Except.ok.injEq] at hr
        subst hr
        have hinfix : (js "<#" ++ id ++ js ">") <:+: replaceNewlines (replaceMentions message) := by
          obtain ⟨pre, hpre⟩ := hsuf
          exact ⟨pre, tail, by rw [← hpre, htail]; simp⟩
        intro c hc
        rcases List.mem_cons.1 hc with e | hc
        · subst e; decide
        · exact hnames id channel hch hinfix c hc
      · simp at hr
    have h2 : NoLineBreak out := by
      refine replaceAll_forall (fun c => c ≠ 10 ∧ c ≠ 13) matchEmote
        (fun emoteName => .ok emoteName) withChannels ?_ _ 0 out (List.suffix_refl _) h h1
      intro suf group len r _ hm hr c hc
      simp only [Except.ok.injEq] at hr
      subst hr
      exact isWordChar_ne_lineBreak c (matchEmote_group suf group len hm c hc)
    refine ⟨⟨fun hin => (h2 10 hin).1 rfl, fun hin => (h2 13 hin).2 rfl⟩,
      replaceNewlines (replaceMentions message), withChannels, replaceNewlines_collapsed _,
      fun t ht => ht.eq_replaceNewlines, hwc, h⟩

/-- An instance of the property: a content with a carriage return and line feed pair, a channel
reference, a line feed and a mention. -/
theorem parseText_no_line_break_witness :
    parseText sampleDiscord (sampleMessage (js "a\r\nb <#42>\n<@123>") []) =
      .ok (js "a b #general @Bob") ∧
    (10 ∉ js "a b #general @Bob" ∧ 13 ∉ js "a b #general @Bob") ∧
    ∃ collapsed withChannels,
      NewlinesCollapsed (replaceMentions (sampleMessage (js "a\r\nb <#42>\n<@123>") []))
        collapsed ∧
      (∀ t, NewlinesCollapsed (replaceMentions (sampleMessage (js "a\r\nb <#42>\n<@123>") [])) t →
        t = collapsed) ∧
      replaceAll matchChannelRef (channelRefReplacer sampleDiscord) 0 collapsed
        = .ok withChannels ∧
      replaceAll matchEmote (fun emoteName => .ok emoteName) 0 withChannels
        = .ok (js "a b #general @Bob") :=
  ⟨rfl,
    parseText_no_line_break sampleDiscord (sampleMessage (js "a\r\nb <#42>\n<@123>") [])
      (js "a b #general @Bob")
      (by
        intro id channel h _
        simp only [sampleDiscord, getProp] at h
        split at h
        · simp only [Option.some.injEq] at h
          subst h
          intro c hc
          simp [templateString, js] at hc
          omega
        · simp at h)
      rfl⟩

/-! ## Plain text passes through `parseText` -/

/-- A pattern found at the start of a text is followed by the rest of the text. -/
theorem append_drop_of_isPrefixOf (pat : JSString) :
    ∀ s : JSString, pat.isPrefixOf s = true → pat ++ s.drop pat.length = s := by
  induction pat with
  | nil => intro s _; simp
  | cons a rest ih =>
    intro s h
    cases s with
    | nil => simp [List.isPrefixOf] at h
    | cons b t =>
      simp only [List.isPrefixOf, Bool.and_eq_true, beq_iff_eq] at h
      simp only [List.length_cons, List.drop_succ_cons, List.cons_append, h.1]
      rw [ih t h.2]

/-- The two parts that `splitAtFirst` answers surround the pattern in the text. -/
theorem splitAtFirst_some (pat : JSString) :
    ∀ (s before after : JSString), splitAtFirst pat s = some (before, after) →
      s = before ++ pat ++ after := by
  intro s
  induction s with
  | nil =>
    intro before after h
    simp only [splitAtFirst] at h
    split at h
    · next hp =>
      simp only [Option.some.injEq, Prod.mk.injEq] at h
      have : pat = [] := by simpa using hp
      simp [← h.1, ← h.2, this]
    · simp at h
  | cons c rest ih =>
    intro before after h
    simp only [splitAtFirst] at h
    split at h
    · next hp =>
      simp only [Option.some.injEq, Prod.mk.injEq] at h
      rw [← h.1, ← h.2]
      simpa using (append_drop_of_isPrefixOf pat (c :: rest) hp).symm
    · cases hr : splitAtFirst pat rest with
      | none => simp [hr] at h
      | some p =>
        obtain ⟨b, a⟩ := p
        rw [hr] at h
        simp only [Option.map, Option.some.injEq, Prod.mk.injEq] at h
        rw [← h.1, ← h.2, ih b a hr]
        simp

/-- Replacing a pattern that does not occur changes nothing. -/
theorem jsReplace_of_absent (s pat rep : JSString) (h : ¬ pat <:+: s) :
    jsReplace s pat rep = s := by
  unfold jsReplace
  cases hs : splitAtFirst pat s with
  | none => rfl
  | some p =>
    obtain ⟨b, a⟩ := p
    exact absurd ⟨b, a, (splitAtFirst_some pat s b a hs).symm⟩ h

/-- Without a mention token of a listed user, the mention step keeps the content. -/
theorem foldl_mentions_unchanged (guild : Guild) (mentions : List User) (content : JSString)
    (h : ∀ u ∈ mentions, ∀ t ∈ mentionTokens u.id, ¬ t <:+: content) :
    mentions.foldl
      (fun content mention =>
        let displayName := getDiscordNicknameOnServer mention guild
        jsReplace
          (jsReplace
            (jsReplace content (js "<@" ++ mention.id ++ js ">") (64 :: displayName))
            (js "<@!" ++ mention.id ++ js ">") (64 :: displayName))
          (js "<@&" ++ mention.id ++ js ">") (64 :: displayName))
      content = content := by
  induction mentions with
  | nil => rfl
  | cons u rest ih =>
    have hu := h u (List.mem_cons_self _ _)
    simp only [mentionTokens, List.mem_cons, List.mem_singleton, List.not_mem_nil, or_false,
      forall_eq_or_imp, forall_eq] at hu
    simp only [List.foldl_cons]
    rw [jsReplace_of_absent _ _ _ hu.1, jsReplace_of_absent _ _ _ hu.2.1,
      jsReplace_of_absent _ _ _ hu.2.2]
    exact ih (fun v hv => h v (List.mem_cons_of_mem _ hv))

/-- Without line breaks, the newline step keeps the text. -/
theorem replaceNewlines_of_noLineBreak (s : JSString) (h : NoLineBreak s) :
    replaceNewlines s = s := by
  induction s using replaceNewlines.induct with
  | case1 => simp [replaceNewlines]
  | case2 c hc =>
    have := h c (List.mem_singleton.2 rfl)
    rcases hc with e | e
    · exact absurd e this.1
    · exact absurd e this.2
  | case3 c hc => simp [replaceNewlines, hc]
  | case4 d rest _ => exact absurd rfl (h 10 (List.mem_cons_self _ _)).1
  | case5 rest _ _ => exact absurd rfl (h 13 (List.mem_cons_self _ _)).2
  | case6 d rest _ _ _ => exact absurd rfl (h 13 (List.mem_cons_self _ _)).2
  | case7 c d rest h1 h2 ih =>
    simp only [replaceNewlines, h1, h2, if_false]
    rw [ih (fun x hx => h x (List.mem_cons_of_mem _ hx))]

/-- A global replacement without any match keeps the text. -/
theorem replaceAll_of_no_match {α : Type} (matchAt : JSString → Option (α × Nat))
    (replacer : α → Except JSError JSString) :
    ∀ s : JSString, (∀ suf, suf <:+ s → matchAt suf = none) →
      replaceAll matchAt replacer 0 s = .ok s := by
  intro s
  induction s with
  | nil => intro _; rfl
  | cons c rest ih =>
    intro h
    have h0 := h (c :: rest) (List.suffix_refl _)
    have hr := ih (fun suf hs => h suf (List.IsSuffix.trans hs (List.suffix_cons c rest)))
    simp only [replaceAll, h0, hr]

/-- A match of a channel reference starts with a channel-reference token. -/
theorem matchChannelRef_token (suf id : JSString) (len : Nat)
    (h : matchChannelRef suf = some (id, len)) :
    ∃ t tail, IsChannelRefToken t ∧ suf = t ++ tail ∧ t = js "<#" ++ id ++ js ">" ∧
      len = t.length := by
  unfold matchChannelRef at h
  split at h
  · next a b rest =>
    split at h
    · next hab =>
      split at h
      · next c tail hdrop =>
        split at h
        · next hc =>
          simp only [Option.some.injEq, Prod.mk.injEq] at h
          have hjoin := List.takeWhile_append_dropWhile isDigit rest
          rw [hdrop, h.1, hc.1] at hjoin
          refine ⟨js "<#" ++ id ++ js ">", tail, ⟨id, ?_, ?_, rfl⟩, ?_, rfl, ?_⟩
          · rw [← h.1]; exact hc.2
          · intro x hx
            rw [← h.1] at hx
            exact List.mem_takeWhile_imp hx
          · rw [hab.1, hab.2, ← hjoin]
            simp [js]
          · rw [← h.2, h.1]
            simp [js]
        · simp at h
      · simp at h
    · simp at h
  · simp at h

/-- A match of an emote starts with an emote token and captures its shortcode. -/
theorem matchEmote_token (suf group : JSString) (len : Nat)
    (h : matchEmote suf = some (group, len)) :
    ∃ name digits tail, name ≠ [] ∧ (∀ c ∈ name, isWordChar c = true) ∧
      digits ≠ [] ∧ (∀ c ∈ digits, isDigit c = true) ∧
      suf = js "<:" ++ name ++ js ":" ++ digits ++ js ">" ++ tail ∧
      group = js ":" ++ name ++ js ":" ∧ len = name.length + digits.length + 4 := by
  unfold matchEmote at h
  split at h
  · next a b rest =>
    split at h
    · next hab =>
      split at h
      · next c rest2 hdrop =>
        split at h
        · next hc =>
          split at h
          · next e tail hdrop2 =>
            split at h
            · next he =>
              simp only [Option.some.injEq, Prod.mk.injEq] at h
              have hj1 := List.takeWhile_append_dropWhile isWordChar rest
              have hj2 := List.takeWhile_append_dropWhile isDigit rest2
              rw [hdrop, hc.1] at hj1
              rw [hdrop2, he.1] at hj2
              refine ⟨rest.takeWhile isWordChar, rest2.takeWhile isDigit, tail, hc.2,
                fun x hx => List.mem_takeWhile_imp hx, he.2,
                fun x hx => List.mem_takeWhile_imp hx, ?_, ?_, h.2.symm⟩
              · rw [hab.1, hab.2]
                have : rest = List.takeWhile isWordChar rest ++ 58 ::
                    (List.takeWhile isDigit rest2 ++ 62 :: tail) := by
                  rw [hj2]; exact hj1.symm
                conv => lhs; rw [this]
                simp [js]
              · rw [← h.1]; simp [js]
            · simp at h
          · simp at h
        · simp at h
      · simp at h
    · simp at h
  · simp at h

/-- Claim C11. When the content holds no mention token of a listed user, no line feed and no
carriage return, no channel reference `<#digits>` and no emote `<:word:digits>`,
`parseText` returns the content unchanged. -/
theorem parseText_plain_unchanged (discord : DiscordClient) (message : Message)
    (hmentions : ∀ u ∈ message.mentions, ∀ t ∈ mentionTokens u.id, ¬ t <:+: message.content)
    (hnewline : NoLineBreak message.content)
    (hchannel : ∀ t, IsChannelRefToken t → ¬ t <:+: message.content)
    (hemote : ∀ t, IsEmoteToken t → ¬ t <:+: message.content) :
    parseText discord message = .ok message.content := by
  have h1 : replaceMentions message = message.content :=
    foldl_mentions_unchanged message.guild message.mentions message.content hmentions
  have h2 : replaceAll matchChannelRef (channelRefReplacer discord) 0 message.content
      = .ok message.content := by
    apply replaceAll_of_no_match
    intro suf hsuf
    cases hm : matchChannelRef suf with
    | none => rfl
    | some p =>
      obtain ⟨id, len⟩ := p
      obtain ⟨t, tail, ht, hst, _, _⟩ := matchChannelRef_token suf id len hm
      obtain ⟨pre, hpre⟩ := hsuf
      exact absurd ⟨pre, tail, by rw [← hpre, hst]; simp⟩ (hchannel t ht)
  have h3 : replaceAll matchEmote (fun emoteName => Except.ok emoteName) 0 message.content
      = .ok message.content := by
    apply replaceAll_of_no_match
    intro suf hsuf
    cases hm : matchEmote suf with
    | none => rfl
    | some p =>
      obtain ⟨g, len⟩ := p
      obtain ⟨name, digits, tail, hn, hnw, hd, hdd, hst, _, _⟩ := matchEmote_token suf g len hm
      obtain ⟨pre, hpre⟩ := hsuf
      exact absurd ⟨pre, tail, by rw [← hpre, hst]; simp⟩
        (hemote _ ⟨name, digits, hn, hnw, hd, hdd, rfl⟩)
  unfold parseText
  rw [h1, replaceNewlines_of_noLineBreak _ hnewline, h2]
  exact h3

/-- A text without `<` holds no token that has one. -/
theorem not_infix_of_not_mem (t s : JSString) (c : Nat) (ht : c ∈ t) (hs : c ∉ s) :
    ¬ t <:+: s :=
  fun h => hs (h.subset ht)

/-- A plain greeting in the bridged channel passes through unchanged. -/
theorem parseText_plain_unchanged_witness :
    parseText sampleDiscord (sampleMessage (js "hello world") []) = .ok (js "hello world") :=
  parseText_plain_unchanged sampleDiscord (sampleMessage (js "hello world") [])
    (by
      intro u _ t ht
      refine not_infix_of_not_mem t _ 60 ?_ (by decide)
      simp only [mentionTokens, List.mem_cons, List.mem_singleton, List.not_mem_nil,
        or_false] at ht
      rcases ht with e | e | e <;> simp [e, js])
    (by
      intro c hc
      simp [sampleMessage, js] at hc
      omega)
    (by
      rintro t ⟨digits, _, _, rfl⟩
      exact not_infix_of_not_mem _ _ 60 (by simp [js]) (by decide))
    (by
      rintro t ⟨name, digits, _, _, _, _, rfl⟩
      exact not_infix_of_not_mem _ _ 60 (by simp [js]) (by decide))

/-! ## The colour of a name -/

/-- Claim C12. With colouring on, the colour of a non-empty display name is the entry of
`NICK_COLORS` at the index (code unit of the first character + length of the name) mod 12;
this index is below the twelve entries of the table and is computed from the name alone;
for `Ann` it is 8, the entry `orange`. -/
theorem colorIndex_spec (colorsWrap : Option JSString → JSString → JSString) (bot : Bot)
    (c : Nat) (rest : JSString) (hcolor : bot.ircNickColor = true) :
    (∃ i color, colorIndex (c :: rest) = some i ∧ i = (c + (rest.length + 1)) % 12 ∧
      i < NICK_COLORS.length ∧ NICK_COLORS.get? i = some color ∧
      displayUsername colorsWrap bot (c :: rest) = colorsWrap (some color) (c :: rest)) ∧
    NICK_COLORS.length = 12 ∧
    colorIndex (js "Ann") = some 8 ∧ NICK_COLORS.get? 8 = some (js "orange") := by
  have hlen : NICK_COLORS.length = 12 := rfl
  have hlt : (c + (rest.length + 1)) % 12 < NICK_COLORS.length := by
    rw [hlen]; exact Nat.mod_lt _ (by decide)
  refine ⟨?_, hlen, rfl, rfl⟩
  obtain ⟨color, hcol⟩ : ∃ color, NICK_COLORS.get? ((c + (rest.length + 1)) % 12) = some color :=
    ⟨_, List.get?_eq_get hlt⟩
  refine ⟨(c + (rest.length + 1)) % 12, color, ?_, rfl, hlt, hcol, ?_⟩
  · simp [colorIndex, hlen]
  · simp only [displayUsername, hcolor, if_true, colorIndex, hlen, List.length_cons,
      Option.some_bind, hcol]

/-- The colour of `Ann` at a relay with colouring on. -/
theorem colorIndex_spec_witness :
    (∃ i color, colorIndex (js "Ann") = some i ∧ i = (65 + 3) % 12 ∧
      i < NICK_COLORS.length ∧ NICK_COLORS.get? i = some color ∧
      displayUsername plainWrap { relayBot with ircNickColor := true } (js "Ann") =
        plainWrap (some color) (js "Ann")) ∧
    NICK_COLORS.length = 12 ∧
    colorIndex (js "Ann") = some 8 ∧ NICK_COLORS.get? 8 = some (js "orange") :=
  colorIndex_spec plainWrap { relayBot with ircNickColor := true } 65 (js "nn") rfl

/-! ## Exceptions of `parseText` -/

/-- Claim C16, at a failing input. A message in the bridged channel whose content refers to
channel 43, which is not in the channel cache, makes `parseText` raise a `TypeError`, and
`sendToIRC` lets it escape. -/
theorem parseText_unknown_channel_throws :
    getProp relayBot.channelMapping (35 :: (sampleMessage (js "see <#43>") []).channelName)
      = some (js "#irc") ∧
    getProp sampleDiscord.channels (js "43") = none ∧
    parseText sampleDiscord (sampleMessage (js "see <#43>") []) = .error .typeError ∧
    sendToIRC plainWrap relayBot sampleDiscord (sampleMessage (js "see <#43>") [])
      = .error .typeError :=
  ⟨rfl, rfl, rfl, rfl⟩

/-! ## The emote step -/

/-- Scanning with `takeWhile` stops at a code unit outside the class. -/
theorem takeWhile_append_stop (p : Nat → Bool) (z : Nat) (hz : p z = false) (r : JSString) :
    ∀ xs : JSString, List.takeWhile p (xs ++ z :: r) = List.takeWhile p xs := by
  intro xs
  induction xs with
  | nil => simp [List.takeWhile, hz]
  | cons a rest ih =>
    by_cases ha : p a = true
    · simp [List.takeWhile, ha, ih]
    · simp [List.takeWhile, ha]

/-- What `dropWhile` leaves in front of a code unit outside the class. -/
theorem dropWhile_append_stop (p : Nat → Bool) (z : Nat) (hz : p z = false) (r : JSString) :
    ∀ xs : JSString, List.dropWhile p (xs ++ z :: r) = List.dropWhile p xs ++ z :: r := by
  intro xs
  induction xs with
  | nil => simp [List.dropWhile, hz]
  | cons a rest ih =>
    by_cases ha : p a = true
    · simp [List.dropWhile, ha, ih]
    · simp [List.dropWhile, ha]

/-- A run of the class in front of a code unit outside it is taken whole. -/
theorem takeWhile_append_all (p : Nat → Bool) (z : Nat) (hz : p z = false) (r : JSString) :
    ∀ xs : JSString, (∀ c ∈ xs, p c = true) → List.takeWhile p (xs ++ z :: r) = xs := by
  intro xs
  induction xs with
  | nil => intro _; simp [List.takeWhile, hz]
  | cons a rest ih =>
    intro h
    have ha : p a = true := h a (List.mem_cons_self _ _)
    simp [List.takeWhile, ha, ih (fun c hc => h c (List.mem_cons_of_mem _ hc))]

/-- A run of the class in front of a code unit outside it is dropped whole. -/
theorem dropWhile_append_all (p : Nat → Bool) (z : Nat) (hz : p z = false) (r : JSString) :
    ∀ xs : JSString, (∀ c ∈ xs, p c = true) → List.dropWhile p (xs ++ z :: r) = z :: r := by
  intro xs
  induction xs with
  | nil => intro _; simp [List.dropWhile, hz]
  | cons a rest ih =>
    intro h
    have ha : p a = true := h a (List.mem_cons_self _ _)
    simp [List.dropWhile, ha, ih (fun c hc => h c (List.mem_cons_of_mem _ hc))]

/-- Skipped code units are dropped. -/
theorem replaceAll_skip {α : Type} (matchAt : JSString → Option (α × Nat))
    (replacer : α → Except JSError JSString) :
    ∀ (s : JSString) (skip : Nat),
      replaceAll matchAt replacer skip s = replaceAll matchAt replacer 0 (s.drop skip) := by
  intro s
  induction s with
  | nil => intro skip; cases skip <;> simp [replaceAll]
  | cons c rest ih =>
    intro skip
    cases skip with
    | zero => simp
    | succ n => simp only [replaceAll, List.drop_succ_cons]; exact ih n

/-- The emote step never fails. -/
theorem replaceAll_emote_ok :
    ∀ (s : JSString) (skip : Nat),
      ∃ out, replaceAll matchEmote (fun emoteName => Except.ok emoteName) skip s = .ok out := by
  intro s
  induction s with
  | nil => intro skip; exact ⟨[], by cases skip <;> simp [replaceAll]⟩
  | cons c rest ih =>
    intro skip
    cases skip with
    | succ n => simpa [replaceAll] using ih n
    | zero =>
      simp only [replaceAll]
      cases hm : matchEmote (c :: rest) with
      | none =>
        obtain ⟨out, ho⟩ := ih 0
        exact ⟨c :: out, by simp [ho]⟩
      | some p =>
        obtain ⟨g, len⟩ := p
        obtain ⟨out, ho⟩ := ih (len - 1)
        exact ⟨g ++ out, by simp [ho]⟩

/-- An emote match in front of a `<` lies before it. -/
theorem matchEmote_append (r : JSString) (c : Nat) (x : JSString) :
    matchEmote (c :: x ++ 60 :: r) = matchEmote (c :: x) := by
  cases x with
  | nil => simp [matchEmote]
  | cons b xs =>
    simp only [List.cons_append, matchEmote]
    split
    · rw [takeWhile_append_stop isWordChar 60 (by decide) r xs,
        dropWhile_append_stop isWordChar 60 (by decide) r xs]
      cases hd : List.dropWhile isWordChar xs with
      | nil => simp
      | cons e rest2 =>
        simp only [List.cons_append]
        split
        · rw [takeWhile_append_stop isDigit 60 (by decide) r rest2,
            dropWhile_append_stop isDigit 60 (by decide) r rest2]
          cases hd2 : List.dropWhile isDigit rest2 with
          | nil => simp
          | cons e2 rest3 => simp
        · rfl
    · rfl

/-- An emote token at the start of a text is matched, with its shortcode as group. -/
theorem matchEmote_of_token (name digits post : JSString)
    (hname : name ≠ []) (hword : ∀ c ∈ name, isWordChar c = true)
    (hdigits : digits ≠ []) (hdigit : ∀ c ∈ digits, isDigit c = true) :
    matchEmote (60 :: 58 :: (name ++ 58 :: (digits ++ 62 :: post))) =
      some (58 :: name ++ [58], name.length + digits.length + 4) := by
  simp only [matchEmote, and_self, if_true]
  rw [takeWhile_append_all isWordChar 58 (by decide) _ name hword,
    dropWhile_append_all isWordChar 58 (by decide) _ name hword]
  simp only [hname, ne_eq, not_false_eq_true, and_self, if_true]
  rw [takeWhile_append_all isDigit 62 (by decide) _ digits hdigit,
    dropWhile_append_all isDigit 62 (by decide) _ digits hdigit]
  simp [hdigits]

/-- The emote step works on the text before a `<` and on the text from it separately. -/
theorem replaceAll_emote_append (r : JSString) :
    ∀ (pre : JSString) (skip : Nat) (a b : JSString), skip ≤ pre.length →
      replaceAll matchEmote (fun emoteName => Except.ok emoteName) skip pre = .ok a →
      replaceAll matchEmote (fun emoteName => Except.ok emoteName) 0 (60 :: r) = .ok b →
      replaceAll matchEmote (fun emoteName => Except.ok emoteName) skip (pre ++ 60 :: r)
        = .ok (a ++ b) := by
  intro pre
  induction pre with
  | nil =>
    intro skip a b hs ha hb
    have h0 : skip = 0 := by simpa using hs
    subst h0
    simp only [replaceAll, Except.ok.injEq] at ha
    subst ha
    simpa using hb
  | cons c pre2 ih =>
    intro skip a b hs ha hb
    cases skip with
    | succ n =>
      simp only [replaceAll, List.cons_append] at ha ⊢
      exact ih n a b (by simpa using hs) ha hb
    | zero =>
      rw [List.cons_append]
      simp only [replaceAll] at ha ⊢
      have hm := matchEmote_append r c pre2
      simp only [List.cons_append] at hm
      rw [hm]
      cases hme : matchEmote (c :: pre2) with
      | none =>
        rw [hme] at ha
        simp only at ha ⊢
        obtain ⟨out, ho⟩ := replaceAll_emote_ok pre2 0
        rw [ho] at ha
        simp only [Except.ok.injEq] at ha
        rw [ih 0 out b (Nat.zero_le _) ho hb, ← ha]
        simp
      | some p =>
        obtain ⟨g, len⟩ := p
        rw [hme] at ha
        simp only at ha ⊢
        obtain ⟨out, ho⟩ := replaceAll_emote_ok pre2 (len - 1)
        rw [ho] at ha
        simp only [Except.ok.injEq] at ha
        obtain ⟨name, digits, tail, _, _, _, _, hshape, _, hlen⟩ :=
          matchEmote_token (c :: pre2) g len hme
        have hle : len - 1 ≤ pre2.length := by
          have := congrArg List.length hshape
          simp [js] at this
          omega
        rw [ih (len - 1) out b hle ho hb, ← ha]
        simp

/-- Claim C18. In the text that reaches the emote step, an emote token `<:name:id>`, with a
name of word characters and an id of digits, is replaced by `:name:`, the text before it
and the text after it being transformed on their own; a text without emote token is left
as it is. -/
theorem parseText_replaces_emotes (discord : DiscordClient) (message : Message)
    (withChannels : JSString)
    (hchannels : replaceAll matchChannelRef (channelRefReplacer discord) 0
      (replaceNewlines (replaceMentions message)) = .ok withChannels) :
    (∀ pre name digits post, name ≠ [] → (∀ c ∈ name, isWordChar c = true) →
      digits ≠ [] → (∀ c ∈ digits, isDigit c = true) →
      withChannels = pre ++ (js "<:" ++ name ++ js ":" ++ digits ++ js ">") ++ post →
      ∃ outPre outPost,
        replaceAll matchEmote (fun emoteName => Except.ok emoteName) 0 pre = .ok outPre ∧
        replaceAll matchEmote (fun emoteName => Except.ok emoteName) 0 post = .ok outPost ∧
        parseText discord message = .ok (outPre ++ (js ":" ++ name ++ js ":") ++ outPost)) ∧
    ((∀ t, IsEmoteToken t → ¬ t <:+: withChannels) →
      parseText discord message = .ok withChannels) := by
  refine ⟨?_, ?_⟩
  · intro pre name digits post hname hword hdigits hdigit hshape
    obtain ⟨outPre, hpre⟩ := replaceAll_emote_ok pre 0
    obtain ⟨outPost, hpost⟩ := replaceAll_emote_ok post 0
    refine ⟨outPre, outPost, hpre, hpost, ?_⟩
    have htok : replaceAll matchEmote (fun emoteName => Except.ok emoteName) 0
        (60 :: 58 :: (name ++ 58 :: (digits ++ 62 :: post))) =
        .ok ((58 :: name ++ [58]) ++ outPost) := by
      simp only [replaceAll, matchEmote_of_token name digits post hname hword hdigits hdigit]
      rw [replaceAll_skip]
      have hdrop : List.drop (name.length + digits.length + 2)
          (name ++ 58 :: (digits ++ 62 :: post)) = post := by
        have e : name.length + digits.length + 2 =
            (name ++ 58 :: (digits ++ [62])).length := by
          simp; omega
        rw [e]
        have e2 : name ++ 58 :: (digits ++ 62 :: post) =
            (name ++ 58 :: (digits ++ [62])) ++ post := by simp
        rw [e2, List.drop_left]
      rw [hdrop, hpost]
    have hall := replaceAll_emote_append _ pre 0 outPre _ (Nat.zero_le _) hpre htok
    unfold parseText
    rw [hchannels, hshape]
    simp only [js, String.toList, List.map, List.cons_append, List.nil_append,
      List.append_assoc] at hall ⊢
    exact hall
  · intro hno
    unfold parseText
    rw [hchannels]
    apply replaceAll_of_no_match
    intro suf hsuf
    cases hm : matchEmote suf with
    | none => rfl
    | some p =>
      obtain ⟨g, len⟩ := p
      obtain ⟨name, digits, tail, hn, hnw, hd, hdd, hst, _, _⟩ := matchEmote_token suf g len hm
      obtain ⟨pre, hpre⟩ := hsuf
      exact absurd ⟨pre, tail, by rw [← hpre, hst]; simp⟩
        (hno _ ⟨name, digits, hn, hnw, hd, hdd, rfl⟩)

/-- An emote between two words at the sample relay. -/
theorem parseText_replaces_emotes_witness :
    ∃ outPre outPost,
      replaceAll matchEmote (fun emoteName => Except.ok emoteName) 0 (js "a ") = .ok outPre ∧
      replaceAll matchEmote (fun emoteName => Except.ok emoteName) 0 (js " b") = .ok outPost ∧
      parseText sampleDiscord (sampleMessage (js "a <:smile:123> b") []) =
        .ok (outPre ++ (js ":" ++ js "smile" ++ js ":") ++ outPost) :=
  (parseText_replaces_emotes sampleDiscord (sampleMessage (js "a <:smile:123> b") [])
      (js "a <:smile:123> b") rfl).1
    (js "a ") (js "smile") (js "123") (js " b") (by decide) (by decide) (by decide) (by decide)
    rfl

/-! ## The inverted mapping as an inverse -/

/-- An entry of an object after a property definition is an old entry or the defined one. -/
theorem mem_defineProp {α : Type} (o : JSObject α) (k : JSString) (v : α) (e : JSString × α)
    (h : e ∈ defineProp o k v) : e ∈ o ∨ e = (k, v) := by
  induction o with
  | nil => simpa [defineProp] using h
  | cons kv rest ih =>
    obtain ⟨k1, v1⟩ := kv
    by_cases h1 : k1 = k
    · simp only [defineProp, h1, if_true, List.mem_cons] at h
      rcases h with h | h
      · exact Or.inr h
      · exact Or.inl (List.mem_cons_of_mem _ h)
    · simp only [defineProp, h1, if_false, List.mem_cons] at h
      rcases h with h | h
      · exact Or.inl (by simp [h])
      · rcases ih h with h | h
        · exact Or.inl (List.mem_cons_of_mem _ h)
        · exact Or.inr h

/-- A property definition keeps the property names distinct. -/
theorem nodup_keys_defineProp {α : Type} (o : JSObject α) (k : JSString) (v : α)
    (h : (keys o).Nodup) : (keys (defineProp o k v)).Nodup := by
  rw [keys_defineProp]
  split
  · exact h
  · next hk =>
    rw [List.nodup_append]
    refine ⟨h, List.nodup_singleton k, ?_⟩
    intro a ha hb
    rw [List.mem_singleton] at hb
    subst hb
    exact hk ha

/-- An entry of an object after an assignment is an old entry or the assigned one. -/
theorem mem_setProp {α : Type} (o : JSObject α) (k : JSString) (v : α) (e : JSString × α)
    (h : e ∈ setProp o k v) : e ∈ o ∨ e = (k, v) := by
  unfold setProp at h
  split at h
  · exact Or.inl h
  · exact mem_defineProp o k v e h

/-- An assignment keeps the property names distinct. -/
theorem nodup_keys_setProp {α : Type} (o : JSObject α) (k : JSString) (v : α)
    (h : (keys o).Nodup) : (keys (setProp o k v)).Nodup := by
  unfold setProp
  split
  · exact h
  · exact nodup_keys_defineProp o k v h

/-- With distinct property names, an entry is what the property read answers. -/
theorem getProp_of_mem {α : Type} (o : JSObject α) (k : JSString) (v : α)
    (hnd : (keys o).Nodup) (h : (k, v) ∈ o) : getProp o k = some v := by
  induction o with
  | nil => simp at h
  | cons kv rest ih =>
    obtain ⟨k1, v1⟩ := kv
    simp only [keys, List.map_cons, List.nodup_cons] at hnd
    rcases List.mem_cons.1 h with e | hmem
    · simp only [Prod.mk.injEq] at e
      simp [getProp, e.1, e.2]
    · by_cases h1 : k1 = k
      · subst h1
        exact absurd (List.mem_map.2 ⟨(k1, v), hmem, rfl⟩) hnd.1
      · simp only [getProp, h1, if_false]
        exact ih hnd.2 hmem

/-- The `forOwn` loop keeps the property names distinct and only adds lowercased values. -/
theorem buildChannelMapping_values (toLowerCase : JSString → JSString)
    (entries : List (JSString × JSVal)) :
    ∀ (acc m : JSObject JSString),
      buildChannelMapping toLowerCase entries acc = .ok m → (keys acc).Nodup →
      (keys m).Nodup ∧
      ∀ e ∈ m, e ∈ acc ∨ ∃ d ircChan, (d, JSVal.string ircChan) ∈ entries ∧
        e = (d, toLowerCase (splitFirst ircChan)) := by
  induction entries with
  | nil =>
    intro acc m h hnd
    simp only [buildChannelMapping, Except.ok.injEq] at h
    subst h
    exact ⟨hnd, fun e he => Or.inl he⟩
  | cons e0 rest ih =>
    intro acc m h hnd
    obtain ⟨d0, v0⟩ := e0
    cases v0 with
    | string s0 =>
      simp only [buildChannelMapping] at h
      obtain ⟨h1, h2⟩ := ih _ m h (nodup_keys_setProp acc d0 _ hnd)
      refine ⟨h1, ?_⟩
      intro e he
      rcases h2 e he with h3 | ⟨d, c, hmem, heq⟩
      · rcases mem_setProp acc d0 _ e h3 with h4 | h4
        · exact Or.inl h4
        · exact Or.inr ⟨d0, s0, List.mem_cons_self _ _, h4⟩
      · exact Or.inr ⟨d, c, List.mem_cons_of_mem _ hmem, heq⟩
    | undefined => simp [buildChannelMapping] at h
    | null => simp [buildChannelMapping] at h
    | bool b => simp [buildChannelMapping] at h
    | number n => simp [buildChannelMapping] at h
    | nan => simp [buildChannelMapping] at h
    | object ps => simp [buildChannelMapping] at h

/-- The last entry with a given value exists as soon as some entry has this value. -/
theorem find_last_value (fwd : JSObject JSString) (d x : JSString) (h : (d, x) ∈ fwd) :
    ∃ d2, (fwd.reverse.find? (fun kv => decide (kv.2 = x))).map Prod.fst = some d2 ∧
      (d2, x) ∈ fwd := by
  cases hf : fwd.reverse.find? (fun kv => decide (kv.2 = x)) with
  | none =>
    rw [List.find?_eq_none] at hf
    have := hf (d, x) (List.mem_reverse.2 h)
    simp at this
  | some kv =>
    obtain ⟨k, v⟩ := kv
    have hp := List.find?_some hf
    have hm := List.mem_reverse.1 (List.mem_of_find?_eq_some hf)
    simp only [decide_eq_true_eq] at hp
    subst hp
    exact ⟨k, rfl, hm⟩

/-- Lowercasing the letters `A` to `Z` twice is lowercasing them once. -/
theorem asciiToLowerCase_idem (s : JSString) :
    asciiToLowerCase (asciiToLowerCase s) = asciiToLowerCase s := by
  induction s with
  | nil => rfl
  | cons c rest ih =>
    simp only [asciiToLowerCase, List.map_cons, List.cons.injEq] at ih ⊢
    refine ⟨?_, ih⟩
    by_cases hc : 65 ≤ c ∧ c ≤ 90
    · have h2 : ¬ (65 ≤ c + 32 ∧ c + 32 ≤ 90) := by omega
      simp only [hc, and_self, if_true, h2, if_false]
    · simp only [hc, if_false]

/-- For a configuration the constructor accepts and a Discord channel `d` of the forward
mapping whose IRC channel is not named `__proto__`, the inverted mapping, read at the
lowercased form of any letter-case variant of the IRC channel of `d`, holds a Discord
channel whose IRC channel is that of `d`; when the forward mapping is one-to-one this
Discord channel is `d` itself. The lowercasing function is taken to be idempotent. -/
theorem invertedMapping_inverse_of_ordinary (validateChannelMapping : JSVal → Option JSString)
    (toLowerCase : JSString → JSString) (options : Options) (steps : List CtorStep) (bot : Bot)
    (hidem : ∀ s, toLowerCase (toLowerCase s) = toLowerCase s)
    (h : Bot.new validateChannelMapping toLowerCase options = (steps, .ok bot))
    (d ircChannel variant : JSString)
    (hd : getProp bot.channelMapping d = some ircChannel)
    (hordinary : ircChannel ≠ js "__proto__")
    (hvariant : toLowerCase variant = toLowerCase ircChannel) :
    (∃ d2, getProp bot.invertedMapping (toLowerCase variant) = some d2 ∧
      getProp bot.channelMapping d2 = some ircChannel) ∧
    ((∀ d1 d2 i, getProp bot.channelMapping d1 = some i →
        getProp bot.channelMapping d2 = some i → d1 = d2) →
      getProp bot.invertedMapping (toLowerCase variant) = some d) := by
  obtain ⟨m, hm, hcm, hinv, _⟩ := Bot.new_ok _ _ _ _ _ h
  obtain ⟨hnd, hvals⟩ := buildChannelMapping_values toLowerCase _ [] m hm (by simp [keys])
  rw [hcm] at hd
  have hmem := mem_of_getProp m d ircChannel hd
  have hlow : toLowerCase ircChannel = ircChannel := by
    rcases hvals _ hmem with h0 | ⟨d0, c0, _, heq⟩
    · simp at h0
    · simp only [Prod.mk.injEq] at heq
      rw [heq.2, hidem]
  obtain ⟨d2, hfind, hd2⟩ := find_last_value m d ircChannel hmem
  have hlook : getProp bot.invertedMapping (toLowerCase variant) = some d2 := by
    rw [hinv, hvariant, hlow]
    have := (invert_fold_spec m [] ircChannel hordinary).2
    simp only [getProp, Option.or_none] at this
    rw [← hfind]
    exact this
  have hfwd : getProp m d2 = some ircChannel := getProp_of_mem m d2 ircChannel hnd hd2
  refine ⟨⟨d2, hlook, by rw [hcm]; exact hfwd⟩, ?_⟩
  intro hinj
  rw [hlook, hinj d d2 ircChannel (by rw [hcm]; exact hd) (by rw [hcm]; exact hfwd)]

/-- Claim C20, at a failing input. The configuration that maps the Discord channel `#a` to
an IRC channel named `__proto__` is accepted and `#a` is a key of the forward mapping, but
the inverted mapping is empty: its read at `__proto__` finds the member inherited from
`Object.prototype`, not the Discord channel `#a`, and a line from that IRC channel makes
`sendToDiscord` raise a `TypeError`. -/
theorem invertedMapping_proto_value :
    ∃ steps bot,
      Bot.new (fun _ => none) asciiToLowerCase protoValueOptions = (steps, .ok bot) ∧
      getProp bot.channelMapping (js "#a") = some (js "__proto__") ∧
      bot.invertedMapping = [] ∧
      readProp bot.invertedMapping (asciiToLowerCase (js "__proto__")) = PropRead.inherited ∧
      sendToDiscord asciiToLowerCase memberMention userMention bot bridgedDiscord
        (js "nick") (js "__proto__") (js "hello") = .error .typeError :=
  ⟨_, _, rfl, rfl, rfl, rfl, rfl⟩

/-! ## Properties of `sendToDiscord` and of the invite listener -/

/-- A global replacement renders the segments of the text. -/
theorem replaceAll_eq_renderSegments {α : Type} (matchAt : JSString → Option (α × Nat))
    (replacer : α → Except JSError JSString) :
    ∀ (s : JSString) (skip : Nat),
      replaceAll matchAt replacer skip s = renderSegments replacer (segments matchAt skip s) := by
  intro s
  induction s with
  | nil => intro skip; cases skip <;> simp [replaceAll, segments, renderSegments]
  | cons c rest ih =>
    intro skip
    cases skip with
    | succ n => simp only [replaceAll, segments]; exact ih n
    | zero =>
      simp only [replaceAll, segments]
      cases hm : matchAt (c :: rest) with
      | none => simp only [renderSegments, ih 0]
      | some p =>
        obtain ⟨g, len⟩ := p
        simp only [renderSegments, ih (len - 1)]

/-- The kept part of a run is a non-empty prefix of the run. -/
theorem longestBoundaryPrefix_spec :
    ∀ (run p : JSString), longestBoundaryPrefix run = some p → p ≠ [] ∧ p <+: run := by
  intro run
  induction run using longestBoundaryPrefix.induct with
  | case1 => intro p h; simp [longestBoundaryPrefix] at h
  | case2 c hc =>
    intro p h
    simp only [longestBoundaryPrefix, hc, if_true, Option.some.injEq] at h
    subst h
    exact ⟨by simp, List.prefix_refl _⟩
  | case3 c hc =>
    intro p h
    simp [longestBoundaryPrefix, hc] at h
  | case4 c d rest q hq ih =>
    intro p h
    simp only [longestBoundaryPrefix, hq, Option.some.injEq] at h
    subst h
    exact ⟨by simp, (List.cons_prefix_cons).2 ⟨rfl, (ih q hq).2⟩⟩
  | case5 c d rest hq hb ih =>
    intro p h
    simp only [longestBoundaryPrefix, hq, hb, if_true, Option.some.injEq] at h
    subst h
    exact ⟨by simp, ⟨d :: rest, rfl⟩⟩
  | case6 c d rest hq hb ih =>
    intro p h
    simp [longestBoundaryPrefix, hq, hb] at h

/-- A match of the mention expression is a non-empty prefix of the text, of the stated length. -/
theorem matchMention_shape (suf g : JSString) (len : Nat)
    (h : matchMention suf = some (g, len)) : g ≠ [] ∧ len = g.length ∧ g <+: suf := by
  cases suf with
  | nil => simp [matchMention] at h
  | cons c rest =>
    simp only [matchMention] at h
    split at h
    · next hc =>
      cases hl : longestBoundaryPrefix (List.takeWhile (fun x => !isWhiteSpace x) rest) with
      | none => simp [hl] at h
      | some p =>
        rw [hl] at h
        simp only [Option.map, Option.some.injEq, Prod.mk.injEq] at h
        obtain ⟨_, hp⟩ := longestBoundaryPrefix_spec _ p hl
        refine ⟨by rw [← h.1]; simp, by rw [← h.1, ← h.2]; simp, ?_⟩
        rw [← h.1, hc]
        exact (List.cons_prefix_cons).2
          ⟨rfl, List.IsPrefix.trans hp ( List.takeWhile_prefix _)⟩
    · simp at h

/-- A global replacement whose replacer answers every match of the text with the matched
text itself keeps the text. -/
theorem replaceAll_verbatim (matchAt : JSString → Option (JSString × Nat))
    (replacer : JSString → Except JSError JSString)
    (hshape : ∀ suf g len, matchAt suf = some (g, len) → g ≠ [] ∧ len = g.length ∧ g <+: suf) :
    ∀ (s : JSString) (skip : Nat),
      (∀ g, Sum.inr g ∈ segments matchAt skip s → replacer g = .ok g) →
      replaceAll matchAt replacer skip s = .ok (s.drop skip) := by
  intro s
  induction s with
  | nil => intro skip _; cases skip <;> simp [replaceAll]
  | cons c rest ih =>
    intro skip h
    cases skip with
    | succ n =>
      simp only [replaceAll, List.drop_succ_cons]
      exact ih n (by simpa [segments] using h)
    | zero =>
      simp only [replaceAll, List.drop_zero]
      cases hm : matchAt (c :: rest) with
      | none =>
        have h2 : ∀ g, Sum.inr g ∈ segments matchAt 0 rest → replacer g = .ok g := by
          intro g hg
          exact h g (by simp [segments, hm, hg])
        simp only [ih 0 h2, List.drop_zero]
      | some p =>
        obtain ⟨g, len⟩ := p
        obtain ⟨hne, hlen, t, ht⟩ := hshape _ g len hm
        have hg : replacer g = .ok g := h g (by simp [segments, hm])
        have h2 : ∀ g2, Sum.inr g2 ∈ segments matchAt (len - 1) rest → replacer g2 = .ok g2 := by
          intro g2 hg2
          exact h g2 (by simp [segments, hm, hg2])
        simp only [hg, ih (len - 1) h2, Except.ok.injEq]
        cases g with
        | nil => exact absurd rfl hne
        | cons a g2 =>
          simp only [List.cons_append, List.cons.injEq] at ht
          rw [hlen, ← ht.2]
          simp [ht.1]

/-- A token that names no member nickname and no username is answered with itself. -/
theorem mentionReplacer_unresolved (memberToString : JSString × GuildMember → JSString)
    (userToString : User → JSString) (discord : DiscordClient) (guild : Guild)
    (token : JSString)
    (hmember : ∀ m ∈ guild.members, m.2.nickname ≠ some (token.drop 1))
    (huser : ∀ u ∈ discord.users, u.username ≠ token.drop 1) :
    mentionReplacer memberToString userToString discord guild token = .ok token := by
  have h1 : guild.members.find? (fun m => decide (m.2.nickname = some (token.drop 1))) = none := by
    rw [List.find?_eq_none]
    intro m hm
    simpa using hmember m hm
  have h2 : discord.users.find? (fun u => decide (u.username = token.drop 1)) = none := by
    rw [List.find?_eq_none]
    intro u hu
    simpa using huser u hu
  simp only [mentionReplacer, h1, h2]

/-- The outcome of `sendToDiscord` once the Discord channel is found. -/
theorem sendToDiscord_of_channel (toLowerCase : JSString → JSString)
    (memberToString : JSString × GuildMember → JSString) (userToString : User → JSString)
    (bot : Bot) (discord : DiscordClient) (author channel text discordChannelName : JSString)
    (discordChannel : JSString × Channel)
    (hmapped : getProp bot.invertedMapping (toLowerCase channel) = some discordChannelName)
    (hname : discordChannelName ≠ [])
    (hchannel : findTextChannel discord (discordChannelName.drop 1) = some discordChannel) :
    sendToDiscord toLowerCase memberToString userToString bot discord author channel text =
      match replaceAll matchMention
          (mentionReplacer memberToString userToString discord discordChannel.2.guild) 0 text with
      | .error e => .error e
      | .ok withMentions =>
          .ok [⟨discordChannel.1, js "**<" ++ author ++ js ">** " ++ withMentions⟩] := by
  have hne : discordChannelName.isEmpty = false := by
    cases discordChannelName with
    | nil => exact absurd rfl hname
    | cons _ _ => rfl
  simp only [sendToDiscord, readProp_of_getProp _ _ _ hmapped, hne, hchannel,
    Bool.false_eq_true, if_false]

/-- When the lowercased IRC channel name is no key of the inverted mapping and no name
inherited from `Object.prototype`, `sendToDiscord` returns normally and sends nothing,
whatever the author and the text. -/
theorem sendToDiscord_unmapped_of_ordinary (toLowerCase : JSString → JSString)
    (memberToString : JSString × GuildMember → JSString) (userToString : User → JSString)
    (bot : Bot) (discord : DiscordClient) (author channel text : JSString)
    (hkey : toLowerCase channel ∉ keys bot.invertedMapping)
    (hordinary : OBJECT_PROTOTYPE_NAMES.contains (toLowerCase channel) = false) :
    sendToDiscord toLowerCase memberToString userToString bot discord author channel text
      = .ok [] := by
  simp only [sendToDiscord, readProp, getProp_eq_none _ _ hkey, hordinary, Bool.false_eq_true,
    if_false]

/-- Claim C13, at a failing input. The IRC name `constructor`, as it is when lowercased, is
no key of the inverted mapping of the sample relay, but the read
`invertedMapping['constructor']` finds the function inherited from `Object.prototype`,
which is truthy: `sendToDiscord` goes on and `discordChannelName.slice(1)` raises a
`TypeError`, instead of returning without a send. -/
theorem sendToDiscord_inherited_name_throws :
    asciiToLowerCase (js "constructor") ∉ keys relayBot.invertedMapping ∧
    readProp relayBot.invertedMapping (asciiToLowerCase (js "constructor"))
      = PropRead.inherited ∧
    sendToDiscord asciiToLowerCase memberMention userMention relayBot bridgedDiscord
      (js "nick") (js "constructor") (js "hello") = .error .typeError :=
  ⟨by decide, rfl, rfl⟩

/-- Claim C14. When the lowercased IRC channel is a key of the inverted mapping, holding a
non-empty Discord channel name, and a text channel of that name exists, and no `@` token
of the text names the nickname of a member of its guild or the username of a known user,
`sendToDiscord` sends exactly one message, to that channel: `**<author>** ` followed by
the text as it is. -/
theorem sendToDiscord_plain (toLowerCase : JSString → JSString)
    (memberToString : JSString × GuildMember → JSString) (userToString : User → JSString)
    (bot : Bot) (discord : DiscordClient) (author channel text discordChannelName : JSString)
    (discordChannel : JSString × Channel)
    (hmapped : getProp bot.invertedMapping (toLowerCase channel) = some discordChannelName)
    (hname : discordChannelName ≠ [])
    (hchannel : findTextChannel discord (discordChannelName.drop 1) = some discordChannel)
    (hunresolved : ∀ token ∈ mentionTokensOf text,
      (∀ m ∈ discordChannel.2.guild.members, m.2.nickname ≠ some (token.drop 1)) ∧
      (∀ u ∈ discord.users, u.username ≠ token.drop 1)) :
    sendToDiscord toLowerCase memberToString userToString bot discord author channel text =
      .ok [⟨discordChannel.1, js "**<" ++ author ++ js ">** " ++ text⟩] := by
  rw [sendToDiscord_of_channel toLowerCase memberToString userToString bot discord author channel
    text discordChannelName discordChannel hmapped hname hchannel]
  have hv := replaceAll_verbatim matchMention
    (mentionReplacer memberToString userToString discord discordChannel.2.guild)
    matchMention_shape text 0
    (by
      intro g hg
      have hmem : g ∈ mentionTokensOf text := by
        simp only [mentionTokensOf, List.mem_filterMap]
        exact ⟨Sum.inr g, hg, rfl⟩
      exact mentionReplacer_unresolved _ _ _ _ g (hunresolved g hmem).1 (hunresolved g hmem).2)
  rw [hv]
  simp

/-- A line that addresses somebody unknown, relayed to the bridged channel. -/
theorem sendToDiscord_plain_witness :
    sendToDiscord asciiToLowerCase memberMention userMention relayBot bridgedDiscord
      (js "nick") (js "#IRC") (js "hello @nobody, bye") =
      .ok [⟨js "7", js "**<nick>** hello @nobody, bye"⟩] :=
  sendToDiscord_plain asciiToLowerCase memberMention userMention relayBot bridgedDiscord
    (js "nick") (js "#IRC") (js "hello @nobody, bye") (js "#discord")
    (js "7", ⟨some (js "discord"), js "text", bridgedGuild⟩) rfl (by decide) rfl
    (by
      intro token ht
      have e : token = js "@nobody" := by
        have : mentionTokensOf (js "hello @nobody, bye") = [js "@nobody"] := by rfl
        rw [this] at ht
        exact List.mem_singleton.1 ht
      subst e
      exact ⟨by decide, by decide⟩)

/-- Claim C17, at a failing input. A line that addresses carol, a known user who is not a
member of the guild of the bridged channel and whose name is no nickname there, makes
`sendToDiscord` raise a `TypeError`; nothing is sent. -/
theorem sendToDiscord_non_member_throws :
    (∀ m ∈ bridgedGuild.members, m.2.nickname ≠ some (js "carol")) ∧
    (⟨js "789", js "carol"⟩ : User) ∈ bridgedDiscord.users ∧
    getProp bridgedGuild.members (js "789") = none ∧
    sendToDiscord asciiToLowerCase memberMention userMention relayBot bridgedDiscord
      (js "nick") (js "#irc") (js "hi @carol") = .error .typeError :=
  ⟨by decide, by simp [bridgedDiscord], rfl, rfl⟩

/-- Claim C15 fails as stated. In the guild of the bridged channel nobody has the nickname
dave, dave is the username of the known user 321, and the nickname Dee of this user in
the guild differs from the search term; yet the token `@dave` is left as it is and not
replaced by a mention of the user. -/
theorem sendToDiscord_username_with_nickname_counterexample :
    (∀ m ∈ bridgedGuild.members, m.2.nickname ≠ some (js "dave")) ∧
    (⟨js "321", js "dave"⟩ : User) ∈ bridgedDiscord.users ∧
    getProp bridgedGuild.members (js "321") = some ⟨some (js "Dee")⟩ ∧
    js "Dee" ≠ js "dave" ∧
    sendToDiscord asciiToLowerCase memberMention userMention relayBot bridgedDiscord
      (js "nick") (js "#irc") (js "@dave") = .ok [⟨js "7", js "**<nick>** @dave"⟩] ∧
    js "@dave" ≠ userMention ⟨js "321", js "dave"⟩ :=
  ⟨by decide, by simp [bridgedDiscord], rfl, by decide, rfl, by decide⟩

/-- Claim C15, amended. The message `sendToDiscord` sends is `**<author>** ` followed by
the text in which every `@` token is replaced by what the replacer answers for it, and
for every token: if a member of the guild of the channel has the remainder of the token
as nickname, the answer is the text of the first such member; otherwise, if a known user
has the remainder as username and is a member of the guild without nickname there, the
answer is the text of the first such user; otherwise, if that user has a nickname in the
guild, or if no known user has this username, the answer is the token itself. -/
theorem sendToDiscord_resolves_mentions (toLowerCase : JSString → JSString)
    (memberToString : JSString × GuildMember → JSString) (userToString : User → JSString)
    (bot : Bot) (discord : DiscordClient) (author channel text discordChannelName : JSString)
    (discordChannel : JSString × Channel)
    (hmapped : getProp bot.invertedMapping (toLowerCase channel) = some discordChannelName)
    (hname : discordChannelName ≠ [])
    (hchannel : findTextChannel discord (discordChannelName.drop 1) = some discordChannel) :
    (sendToDiscord toLowerCase memberToString userToString bot discord author channel text =
      match renderSegments
          (mentionReplacer memberToString userToString discord discordChannel.2.guild)
          (segments matchMention 0 text) with
      | .error e => .error e
      | .ok withMentions =>
          .ok [⟨discordChannel.1, js "**<" ++ author ++ js ">** " ++ withMentions⟩]) ∧
    ∀ token : JSString,
      (∀ nickUser,
        discordChannel.2.guild.members.find?
          (fun m => decide (m.2.nickname = some (token.drop 1))) = some nickUser →
        mentionReplacer memberToString userToString discord discordChannel.2.guild token
          = .ok (memberToString nickUser)) ∧
      ((∀ m ∈ discordChannel.2.guild.members, m.2.nickname ≠ some (token.drop 1)) →
        (∀ user member,
          discord.users.find? (fun u => decide (u.username = token.drop 1)) = some user →
          getProp discordChannel.2.guild.members user.id = some member →
          ((member.nickname = none ∨ member.nickname = some []) →
            mentionReplacer memberToString userToString discord discordChannel.2.guild token
              = .ok (userToString user)) ∧
          (∀ nickname, member.nickname = some nickname → nickname ≠ [] →
            mentionReplacer memberToString userToString discord discordChannel.2.guild token
              = .ok token)) ∧
        ((∀ u ∈ discord.users, u.username ≠ token.drop 1) →
          mentionReplacer memberToString userToString discord discordChannel.2.guild token
            = .ok token)) := by
  refine ⟨?_, ?_⟩
  · rw [sendToDiscord_of_channel toLowerCase memberToString userToString bot discord author
      channel text discordChannelName discordChannel hmapped hname hchannel,
      replaceAll_eq_renderSegments]
  · intro token
    refine ⟨?_, ?_⟩
    · intro nickUser hfind
      simp only [mentionReplacer, hfind]
    · intro hnomember
      have h1 : discordChannel.2.guild.members.find?
          (fun m => decide (m.2.nickname = some (token.drop 1))) = none := by
        rw [List.find?_eq_none]
        intro m hm
        simpa using hnomember m hm
      refine ⟨?_, ?_⟩
      · intro user member huser hmember
        refine ⟨?_, ?_⟩
        · intro hnick
          rcases hnick with hn | hn
          · simp only [mentionReplacer, h1, huser, hmember, hn]
          · simp only [mentionReplacer, h1, huser, hmember, hn, List.isEmpty_nil, Bool.true_or,
              if_true]
        · intro nickname hn hne
          have hdiff : nickname ≠ token.drop 1 := by
            intro e
            have hm := mem_of_getProp _ _ _ hmember
            exact hnomember _ hm (by rw [hn, e])
          have hemp : nickname.isEmpty = false := by
            cases nickname with
            | nil => exact absurd rfl hne
            | cons _ _ => rfl
          simp only [mentionReplacer, h1, huser, hmember, hn, hemp, Bool.false_or,
            decide_eq_true_eq, hdiff, if_false]
      · intro hnouser
        exact mentionReplacer_unresolved _ _ _ _ token hnomember hnouser

/-- A line that addresses a member by nickname and a member without nickname by username. -/
theorem sendToDiscord_resolves_mentions_witness :
    sendToDiscord asciiToLowerCase memberMention userMention relayBot bridgedDiscord
      (js "nick") (js "#IRC") (js "hi @Bob, @alice!") =
      .ok [⟨js "7", js "**<nick>** hi <@!123>, <@456>!"⟩] ∧
    mentionReplacer memberMention userMention bridgedDiscord bridgedGuild (js "@Bob")
      = .ok (memberMention (js "123", ⟨some (js "Bob")⟩)) :=
  ⟨(sendToDiscord_resolves_mentions asciiToLowerCase memberMention userMention relayBot
      bridgedDiscord (js "nick") (js "#IRC") (js "hi @Bob, @alice!") (js "#discord")
      (js "7", ⟨some (js "discord"), js "text", bridgedGuild⟩) rfl (by decide) rfl).1,
   ((sendToDiscord_resolves_mentions asciiToLowerCase memberMention userMention relayBot
      bridgedDiscord (js "nick") (js "#IRC") (js "hi @Bob, @alice!") (js "#discord")
      (js "7", ⟨some (js "discord"), js "text", bridgedGuild⟩) rfl (by decide) rfl).2
      (js "@Bob")).1 (js "123", ⟨some (js "Bob")⟩) rfl⟩

/-- A name that is a key of an object reads as some value. -/
theorem getProp_of_mem_keys {α : Type} (o : JSObject α) (k : JSString) (h : k ∈ keys o) :
    ∃ v, getProp o k = some v := by
  induction o with
  | nil => simp [keys] at h
  | cons kv rest ih =>
    obtain ⟨k1, v1⟩ := kv
    by_cases h1 : k1 = k
    · exact ⟨v1, by simp [getProp, h1]⟩
    · simp only [keys, List.map_cons, List.mem_cons] at h
      rcases h with h | h
      · exact absurd h.symm h1
      · obtain ⟨v, hv⟩ := ih h
        exact ⟨v, by simp [getProp, h1, hv]⟩

/-- For a relay built from a configuration whose Discord channel names are not empty, and
for an inviting channel that is no name inherited from `Object.prototype`, the invite
listener joins the channel exactly when it is a key of the inverted mapping and joins
nothing otherwise; such a key is the lowercased, password-stripped IRC channel of some
entry of the configured mapping. -/
theorem onInvite_joins_iff_of_ordinary (validateChannelMapping : JSVal → Option JSString)
    (toLowerCase : JSString → JSString) (options : Options) (steps : List CtorStep) (bot : Bot)
    (h : Bot.new validateChannelMapping toLowerCase options = (steps, .ok bot))
    (hnames : ∀ e ∈ ownEntries options.channelMapping, e.1 ≠ [])
    (channel : JSString)
    (hordinary : OBJECT_PROTOTYPE_NAMES.contains channel = false) :
    (onInvite bot channel = [channel] ↔ channel ∈ keys bot.invertedMapping) ∧
    (onInvite bot channel = [] ↔ channel ∉ keys bot.invertedMapping) ∧
    (channel ∈ keys bot.invertedMapping →
      ∃ d ircChan, (d, JSVal.string ircChan) ∈ ownEntries options.channelMapping ∧
        channel = toLowerCase (splitFirst ircChan)) := by
  obtain ⟨m, hm, hcm, hinv, _⟩ := Bot.new_ok _ _ _ _ _ h
  obtain ⟨_, hvals⟩ := buildChannelMapping_values toLowerCase _ [] m hm (by simp [keys])
  have hnp : channel ≠ js "__proto__" := by
    intro e
    rw [e] at hordinary
    exact absurd hordinary (by decide)
  have hentry : ∀ d, getProp bot.invertedMapping channel = some d →
      ∃ ircChan, (d, JSVal.string ircChan) ∈ ownEntries options.channelMapping ∧
        channel = toLowerCase (splitFirst ircChan) := by
    intro d hd
    rw [hinv] at hd
    have hspec : getProp (invert m) channel =
        (m.reverse.find? (fun kv => decide (kv.2 = channel))).map Prod.fst := by
      have := (invert_fold_spec m [] channel hnp).2
      simpa [getProp, invert] using this
    rw [hspec] at hd
    cases hf : m.reverse.find? (fun kv => decide (kv.2 = channel)) with
    | none => simp [hf] at hd
    | some kv =>
      rw [hf] at hd
      simp only [Option.map, Option.some.injEq] at hd
      have hp := List.find?_some hf
      have hmem := List.mem_reverse.1 (List.mem_of_find?_eq_some hf)
      simp only [decide_eq_true_eq] at hp
      rcases hvals kv hmem with h0 | ⟨d0, c0, hin, heq⟩
      · simp at h0
      · refine ⟨c0, ?_, ?_⟩
        · rw [← hd, heq]; exact hin
        · rw [← hp, heq]
  have hcases : (channel ∉ keys bot.invertedMapping ∧ onInvite bot channel = []) ∨
      (channel ∈ keys bot.invertedMapping ∧ onInvite bot channel = [channel]) := by
    by_cases hk : channel ∈ keys bot.invertedMapping
    · right
      obtain ⟨d, hd⟩ := getProp_of_mem_keys _ _ hk
      obtain ⟨c0, hin, _⟩ := hentry d hd
      have hne : d.isEmpty = false := by
        have := hnames _ hin
        cases d with
        | nil => exact absurd rfl this
        | cons _ _ => rfl
      exact ⟨hk, by simp [onInvite, readProp, hd, hne]⟩
    · left
      exact ⟨hk, by
        simp only [onInvite, readProp, getProp_eq_none _ _ hk, hordinary, Bool.false_eq_true,
          if_false]⟩
  refine ⟨?_, ?_, ?_⟩
  · rcases hcases with ⟨hk, ho⟩ | ⟨hk, ho⟩
    · rw [ho]; simp [hk]
    · rw [ho]; simp [hk]
  · rcases hcases with ⟨hk, ho⟩ | ⟨hk, ho⟩
    · rw [ho]; simp [hk]
    · rw [ho]; simp [hk]
  · intro hk
    obtain ⟨d, hd⟩ := getProp_of_mem_keys _ _ hk
    obtain ⟨c0, hin, hc⟩ := hentry d hd
    exact ⟨d, c0, hin, hc⟩

/-- Claim C19, at a failing input. The name `constructor` is no key of the inverted mapping
of the sample relay, but the read `invertedMapping['constructor']` finds the function
inherited from `Object.prototype`, which is truthy: on an invite to `constructor` the
listener joins that channel, which is not an IRC channel of the configured mapping. -/
theorem onInvite_inherited_name_joins :
    js "constructor" ∉ keys relayBot.invertedMapping ∧
    readProp relayBot.invertedMapping (js "constructor") = PropRead.inherited ∧
    onInvite relayBot (js "constructor") = [js "constructor"] :=
  ⟨by decide, rfl, rfl⟩

end DiscordIrc
